import Mathlib

/-!
# Verification of the `ebrltranscription` text-comparison core

This file gives a shallow embedding of the comparison core of
`src/compare.py` (the functions `normalize_word`, `compare_texts`,
`clean_text`, `contraction_map`, `map_expanded_to_contraction`,
`split_compound_words`) together with a model of the behaviour of Python's
`difflib.SequenceMatcher` (with `isjunk = None` and the default
`autojunk = True`), which `compare_texts` calls.

Modelling conventions:
* Python floating-point results are modelled as exact rationals; every
  numeric value compared against in this development (`0`, `1`, `1/3`, …)
  is exactly representable in binary floating point, so no behaviour is
  lost by this choice.
* The Unicode tables consulted by the source (`unicodedata.normalize`,
  `unicodedata.category`, `str.lower`, `str.split`, the `\w` class of
  `re`) are modelled on the character repertoire exercised by this
  development: the full ASCII range, the combining acute accent U+0301 and
  the precomposed letter U+00E1.  On that repertoire the model agrees with
  the Unicode standard: NFKC is the identity on ASCII text and composes
  `a` + U+0301 to U+00E1; the ASCII code points of general category P are
  exactly the ones listed in `punctChars`; `str.lower` maps `A`–`Z` to
  `a`–`z`; `str.split` splits on the whitespace code points listed in
  `spaceCodes`.
-/

namespace Ebrl

/-- The combining acute accent U+0301 (Unicode general category Mn). -/
def combAcute : Char := Char.ofNat 769

/-- The precomposed letter a-acute U+00E1, whose canonical decomposition is
`a` followed by U+0301. -/
def aAcute : Char := Char.ofNat 225

/-- The ASCII code points whose Unicode general category starts with `P`
(categories Pc, Pd, Ps, Pe, Po): `! " # % & ' ( ) * , - . / : ; ? @ [ \ ] _ { }`.
The remaining ASCII symbols (`$ + < = > ^ `` | ~`) have category S. -/
def punctChars : List Char :=
  ['!', '"', '#', '%', '&', Char.ofNat 39, '(', ')', '*', ',', '-', '.', '/',
    ':', ';', '?', '@', '[', '\\', ']', '_', Char.ofNat 123, Char.ofNat 125]

/-- `unicodedata.category(ch).startswith('P')`, on the modelled repertoire. -/
def isPunct (c : Char) : Bool := punctChars.contains c

/-- The code points on which Python's `str.split()` (no arguments) splits. -/
def spaceCodes : List Nat :=
  [9, 10, 11, 12, 13, 28, 29, 30, 31, 32, 133, 160, 5760, 8192, 8193, 8194,
    8195, 8196, 8197, 8198, 8199, 8200, 8201, 8202, 8232, 8233, 8239, 8287, 12288]

/-- Whitespace for Python `str.split()`. -/
def isPySpace (c : Char) : Bool := spaceCodes.contains c.toNat

/-- Python `str.lower` on one character, on the modelled repertoire
(`A`–`Z` map to `a`–`z`; every other modelled character is already
lowercase or uncased). -/
def pyLowerChar (c : Char) : Char :=
  if 65 ≤ c.toNat ∧ c.toNat ≤ 90 then Char.ofNat (c.toNat + 32) else c

/-- NFKC decomposition step on the modelled repertoire: U+00E1 decomposes
to `a` + U+0301; every other modelled character decomposes to itself. -/
def nfkcDecomp (c : Char) : List Char := if c = aAcute then ['a', combAcute] else [c]

/-- NFKC canonical-composition pass on the modelled repertoire: the pair
`a` + U+0301 composes to U+00E1; no other modelled pair composes. -/
def nfkcCompose : List Char → List Char
  | [] => []
  | [c] => [c]
  | c₁ :: c₂ :: rest =>
    if c₁ = 'a' ∧ c₂ = combAcute then aAcute :: nfkcCompose rest
    else c₁ :: nfkcCompose (c₂ :: rest)

/-- `unicodedata.normalize('NFKC', s)` on the modelled repertoire. -/
def nfkc (s : String) : String := String.mk (nfkcCompose (s.data.flatMap nfkcDecomp))

/-- Removal of every character whose general category starts with `P`,
as in `normalize_word` of `src/compare.py`. -/
def stripPunct (s : String) : String := String.mk (s.data.filter (fun c => !isPunct c))

/-- Python `str.lower` on the modelled repertoire. -/
def pyLower (s : String) : String := String.mk (s.data.map pyLowerChar)

/-- `normalize_word` from `src/compare.py`: NFKC-normalize, strip every
Unicode-punctuation code point, lowercase. -/
def normalize_word (word : String) : String := pyLower (stripPunct (nfkc word))

/-- Accumulator-style splitter behind `pySplit`; the accumulator holds the
current in-progress token reversed. -/
def splitAux : List Char → List Char → List String
  | [], acc => if acc = [] then [] else [String.mk acc.reverse]
  | c :: cs, acc =>
    if isPySpace c then
      (if acc = [] then [] else [String.mk acc.reverse]) ++ splitAux cs []
    else splitAux cs (c :: acc)

/-- Python `text.split()`: split on runs of whitespace, discarding empty
tokens. -/
def pySplit (s : String) : List String := splitAux s.data []

/-!
## The `difflib.SequenceMatcher` model

`compare_texts` builds `SequenceMatcher(None, words1, words2)`.  With
`isjunk = None` the junk set `bjunk` is empty, and the default
`autojunk = True` heuristic removes from the index `b2j` every element of
`b` occurring more than `len(b) // 100 + 1` times, provided
`len(b) >= 200` (the "popular" elements).  `find_longest_match` then
returns the longest matching block free of popular `b`-elements —
resolving ties to the block starting earliest in `a` and, among those, the
one starting earliest in `b` — and finally extends that block on both
sides over arbitrary equal elements (popular ones included, since they are
not in `bjunk`).  `get_matching_blocks` recurses on the two remainders;
`compare_texts` only consumes the total size of all blocks and the ratio
`2 * total / (len(a) + len(b))`.
-/

/-- Length of the longest common prefix of two lists. -/
def commonRun [DecidableEq α] : List α → List α → Nat
  | x :: xs, y :: ys => if x = y then commonRun xs ys + 1 else 0
  | _, _ => 0

/-- Length of the longest common prefix of two lists avoiding the popular
elements `pop` (membership of the second list's element in `pop` is what
the `b2j` purge tests). -/
def popFreeRun [DecidableEq α] (pop : List α) : List α → List α → Nat
  | x :: xs, y :: ys =>
    if x = y ∧ pop.contains y = false then popFreeRun pop xs ys + 1 else 0
  | _, _ => 0

/-- All index pairs `(i, j)` with `i < m`, `j < n`, in lexicographic
order — the traversal order of the `find_longest_match` loops. -/
def pairList (m n : Nat) : List (Nat × Nat) :=
  (List.range m).flatMap (fun i => (List.range n).map (fun j => (i, j)))

/-- Lexicographic order on index pairs: the tie-break order of
`find_longest_match` ("earliest in `a`, then earliest in `b`"). -/
def pairLexLT (p q : Nat × Nat) : Prop := p.1 < q.1 ∨ (p.1 = q.1 ∧ p.2 < q.2)

/-- Scan a list of candidate positions, keeping the first candidate whose
value strictly exceeds the best so far — the update discipline of the
`k > bestsize` test in `find_longest_match`. -/
def scanBest (f : Nat × Nat → Nat) : List (Nat × Nat) → Nat × Nat × Nat → Nat × Nat × Nat
  | [], best => best
  | p :: ps, best => scanBest f ps (if best.2.2 < f p then (p.1, p.2, f p) else best)

/-- The longest popular-free matching block of `a` and `b` (ties: earliest
start in `a`, then earliest start in `b`), as `(i, j, size)`; `(0, 0, 0)`
when there is none. -/
def bestJF [DecidableEq α] (pop a b : List α) : Nat × Nat × Nat :=
  scanBest (fun p => popFreeRun pop (a.drop p.1) (b.drop p.2))
    (pairList a.length b.length) (0, 0, 0)

/-- `find_longest_match` over whole sequences: the best popular-free block,
extended on both sides by arbitrary equal elements (`bjunk` is empty, so
the two non-junk extension loops compare elements unconditionally and the
two junk extension loops never fire). -/
def findLongestMatch [DecidableEq α] (pop a b : List α) : Nat × Nat × Nat :=
  let t := bestJF pop a b
  let back := commonRun (a.take t.1).reverse (b.take t.2.1).reverse
  let fwd := commonRun (a.drop (t.1 + t.2.2)) (b.drop (t.2.1 + t.2.2))
  (t.1 - back, t.2.1 - back, t.2.2 + back + fwd)

/-- The popular elements of `b` under the `autojunk` heuristic: when
`len(b) >= 200`, the elements occurring more than `len(b) // 100 + 1`
times. -/
def popularList [DecidableEq α] (b : List α) : List α :=
  if 200 ≤ b.length then
    b.dedup.filter (fun x => b.length / 100 + 1 < b.count x)
  else []

/-- Total size of all matching blocks of `get_matching_blocks` (the
recursion of its work queue; sorting and merging adjacent blocks do not
change the total, and the dummy terminator has size 0).  The fuel argument
is a recursion-depth bound; every recursive call strictly shrinks
`a.length + b.length`, so fuel `a.length + b.length` suffices. -/
def matchSumF [DecidableEq α] : Nat → List α → List α → List α → Nat
  | 0, _, _, _ => 0
  | fuel + 1, pop, a, b =>
    let t := findLongestMatch pop a b
    if t.2.2 = 0 then 0
    else
      (if 0 < t.1 ∧ 0 < t.2.1 then matchSumF fuel pop (a.take t.1) (b.take t.2.1) else 0)
        + t.2.2
        + (if t.1 + t.2.2 < a.length ∧ t.2.1 + t.2.2 < b.length then
            matchSumF fuel pop (a.drop (t.1 + t.2.2)) (b.drop (t.2.1 + t.2.2))
          else 0)

/-- `sum(triple.size for triple in SequenceMatcher(None, a, b).get_matching_blocks()[:-1])`. -/
def seqMatches [DecidableEq α] (a b : List α) : Nat :=
  matchSumF (a.length + b.length) (popularList b) a b

/-- `difflib._calculate_ratio`: `2 * matches / length`, and `1.0` when
`length` is zero. -/
def calculate_ratio (m len : Nat) : ℚ :=
  if len = 0 then 1 else 2 * m / len

/-- `SequenceMatcher(None, a, b).ratio()`. -/
def seqRatio [DecidableEq α] (a b : List α) : ℚ :=
  calculate_ratio (seqMatches a b) (a.length + b.length)

/-- The record returned by `compare_texts`. -/
structure CompareResult where
  total_words : Nat
  num_matches : Nat
  different_words : ℚ
  sequence_similarity : ℚ
  word_order_similarity : ℚ

/-- `compare_texts` from `src/compare.py`. -/
def compare_texts (text1 text2 : String) : CompareResult :=
  let words1 := (pySplit text1).map normalize_word
  let words2 := (pySplit text2).map normalize_word
  let num_matches := seqMatches words1 words2
  { total_words := max words1.length words2.length
    num_matches := num_matches
    different_words := ((words1.length + words2.length : ℚ) - 2 * num_matches) / 2
    sequence_similarity :=
      seqRatio (String.intercalate " " words1).data (String.intercalate " " words2).data
    word_order_similarity := seqRatio words1 words2 }

/-!
## The classic recursive longest-matching-block algorithm

Modelled from the spec: "repeatedly find the longest common contiguous
run, recurse on the left and right remainders, accumulate block lengths",
with "ties among equal-length candidate matching blocks … resolve[d] to
the earliest-starting block in each sequence".  This is the comparison
point for the refinement claim C1; the code itself calls
`difflib.SequenceMatcher` instead.
-/

/-- The largest length of a common contiguous run of `a` and `b`. -/
def maxRunVal [DecidableEq α] (a b : List α) : Nat :=
  ((pairList a.length b.length).map
    (fun p => commonRun (a.drop p.1) (b.drop p.2))).foldr max 0

/-- First element of a list satisfying a predicate. -/
def firstSuch (p : Nat → Bool) : List Nat → Option Nat
  | [] => none
  | x :: xs => if p x then some x else firstSuch p xs

/-- The longest common contiguous run of `a` and `b`, ties resolved to the
earliest start in `a` and then the earliest start in `b` (when the maximal
run length `K` is positive both searches succeed, so the fallback value
`0` of `Option.getD` is never used). -/
def classicFind [DecidableEq α] (a b : List α) : Nat × Nat × Nat :=
  let K := maxRunVal a b
  if K = 0 then (0, 0, 0)
  else
    let i := (firstSuch
      (fun i => (List.range b.length).any
        (fun j => commonRun (a.drop i) (b.drop j) == K))
      (List.range a.length)).getD 0
    let j := (firstSuch (fun j => commonRun (a.drop i) (b.drop j) == K)
      (List.range b.length)).getD 0
    (i, j, K)

/-- Accumulated block lengths of the classic recursive algorithm (fueled;
fuel `a.length + b.length` suffices as every recursive call shrinks it). -/
def classicSumF [DecidableEq α] : Nat → List α → List α → Nat
  | 0, _, _ => 0
  | fuel + 1, a, b =>
    let t := classicFind a b
    if t.2.2 = 0 then 0
    else
      classicSumF fuel (a.take t.1) (b.take t.2.1) + t.2.2
        + classicSumF fuel (a.drop (t.1 + t.2.2)) (b.drop (t.2.1 + t.2.2))

/-- Sum of block lengths produced by the classic recursive
longest-matching-block algorithm of the spec. -/
def classicMatches [DecidableEq α] (a b : List α) : Nat :=
  classicSumF (a.length + b.length) a b


/-!
## The canonicalization pipeline

`main` in `src/compare.py` feeds each document through `clean_text`,
`map_expanded_to_contraction` and `split_compound_words` before calling
`compare_texts`.
-/

/-- Python's `\w` class on the modelled repertoire: ASCII letters, digits
and the underscore. -/
def isWordChar (c : Char) : Bool := c.isAlphanum || c = '_'

/-- The punctuation class `[.,;:!?"\x27-]` that `clean_text` strips after
the marker word. -/
def trailChars : List Char := ['.', ',', ';', ':', '!', '?', '"', Char.ofNat 39, '-']

/-- Drop a leading run of `trailChars`, reporting whether anything was
dropped. -/
def dropTrailF : List Char → Bool × List Char
  | [] => (false, [])
  | c :: cs => if trailChars.contains c then (true, (dropTrailF cs).2) else (false, c :: cs)

/-- Case-insensitive anchored match of a lowercase pattern against the
head of the text (`re.IGNORECASE` on ASCII). -/
def ciMatch : List Char → List Char → Bool
  | [], _ => true
  | _ :: _, [] => false
  | p :: ps, c :: cs => pyLowerChar c = p && ciMatch ps cs

/-- Does a `\b` boundary follow here, the previous character being a word
character? -/
def isBoundaryAfter : List Char → Bool
  | [] => true
  | c :: _ => !isWordChar c

/-- Scanner behind `clean_text`: `prevW` records whether the character
just before the current position (in the original text, as `re` sees it)
is a word character.  On a match, at least nine characters are consumed,
so fuel `length` suffices; the consumed text ends either in `e` (a word
character) or in a stripped punctuation character (never a word
character), which fixes the next `prevW`. -/
def cleanAuxF : Nat → Bool → List Char → List Char
  | 0, _, _ => []
  | _ + 1, _, [] => []
  | fuel + 1, prevW, c :: cs =>
    if prevW = false ∧ ciMatch "inaudible".data (c :: cs) = true
        ∧ isBoundaryAfter ((c :: cs).drop 9) = true then
      let r := dropTrailF ((c :: cs).drop 9)
      cleanAuxF fuel (!r.1) r.2
    else c :: cleanAuxF fuel (isWordChar c) cs

/-- `clean_text` from `src/compare.py`: remove every case-insensitive
whole-word occurrence of `inaudible` together with a trailing punctuation
run. -/
def clean_text (text : String) : String :=
  String.mk (cleanAuxF text.data.length false text.data)

/-- Anchored exact match of a pattern against the head of a list. -/
def prefMatch [DecidableEq α] : List α → List α → Bool
  | [], _ => true
  | _ :: _, [] => false
  | p :: ps, c :: cs => p = c && prefMatch ps cs

/-- Does `old` occur as a contiguous sublist of the text?  (`old` is
nonempty at every use site.) -/
def containsSub (old : List Char) : List Char → Bool
  | [] => false
  | c :: cs => prefMatch old (c :: cs) || containsSub old cs

/-- Scanner behind `pyReplace`: replace every occurrence of `old`
left-to-right without rescanning the replacement, as Python `str.replace`
does.  Each step consumes at least one character when `old` is nonempty,
so fuel `length` suffices. -/
def replaceAuxF (old new : List Char) : Nat → List Char → List Char
  | 0, _ => []
  | _ + 1, [] => []
  | fuel + 1, c :: cs =>
    if prefMatch old (c :: cs) then
      new ++ replaceAuxF old new fuel ((c :: cs).drop old.length)
    else c :: replaceAuxF old new fuel cs

/-- Python `s.replace(old, new)`.  The `old = ""` case is never exercised
by the program (every normalized mapping key is nonempty) and is modelled
as the identity. -/
def pyReplace (s old new : String) : String :=
  if old.data = [] then s
  else String.mk (replaceAuxF old.data new.data s.data.length s.data)

/-- `contraction_map` from `src/compare.py`, in dictionary insertion
order.  Apostrophes are written as the escape `\x27`. -/
def contraction_map : List (String × String) :=
  [("they are", "theyre"), ("we are", "were"), ("you are", "youre"),
    ("i am", "im"), ("do not", "dont"), ("does not", "doesnt"),
    ("did not", "didnt"), ("is not", "isnt"), ("are not", "arent"),
    ("was not", "wasnt"), ("were not", "werent"), ("have not", "havent"),
    ("has not", "hasnt"), ("had not", "hadnt"), ("will not", "wont"),
    ("would not", "wouldnt"), ("should not", "shouldnt"), ("could not", "couldnt"),
    ("cannot", "cant"), ("can not", "cant"), ("it is", "its"),
    ("it will", "itll"), ("that is", "thats"), ("there is", "theres"),
    ("what is", "whats"), ("who is", "whos"), ("let us", "lets"),
    ("i will", "ill"), ("you will", "youll"), ("he will", "hell"),
    ("she will", "shell"), ("we will", "well"), ("they will", "theyll"),
    ("i have", "ive"), ("you have", "youve"), ("we have", "weve"),
    ("they have", "theyve"), ("should have", "shouldve"), ("would have", "wouldve"),
    ("could have", "couldve"), ("might have", "mightve"), ("must have", "mustve"),
    ("i would", "id"), ("you would", "youd"), ("he would", "hed"),
    ("she would", "shed"), ("we would", "wed"), ("they would", "theyd"),
    ("i had", "id"), ("you had", "youd"), ("he had", "hed"),
    ("she had", "shed"), ("we had", "wed"), ("they had", "theyd"),
    ("aren\x27t", "arent"), ("can\x27t", "cant"), ("couldn\x27t", "couldnt"),
    ("didn\x27t", "didnt"), ("doesn\x27t", "doesnt"), ("don\x27t", "dont"),
    ("hadn\x27t", "hadnt"), ("hasn\x27t", "hasnt"), ("haven\x27t", "havent"),
    ("he\x27d", "hed"), ("he\x27ll", "hell"), ("he\x27s", "hes"),
    ("i\x27d", "id"), ("i\x27ll", "ill"), ("i\x27m", "im"),
    ("i\x27ve", "ive"), ("isn\x27t", "isnt"), ("it\x27d", "itd"),
    ("it\x27ll", "itll"), ("it\x27s", "its"), ("let\x27s", "lets"),
    ("mightn\x27t", "mightnt"), ("mustn\x27t", "mustnt"), ("shan\x27t", "shant"),
    ("she\x27d", "shed"), ("she\x27ll", "shell"), ("she\x27s", "shes"),
    ("shouldn\x27t", "shouldnt"), ("that\x27s", "thats"), ("there\x27s", "theres"),
    ("they\x27d", "theyd"), ("they\x27ll", "theyll"), ("they\x27re", "theyre"),
    ("they\x27ve", "theyve"), ("we\x27d", "wed"), ("we\x27re", "were"),
    ("we\x27ve", "weve"), ("weren\x27t", "werent"), ("what\x27ll", "whatll"),
    ("what\x27re", "whatre"), ("what\x27s", "whats"), ("what\x27ve", "whatve"),
    ("where\x27s", "wheres"), ("who\x27d", "whod"), ("who\x27ll", "wholl"),
    ("who\x27re", "whore"), ("who\x27s", "whos"), ("who\x27ve", "whove"),
    ("won\x27t", "wont"), ("wouldn\x27t", "wouldnt"), ("you\x27d", "youd"),
    ("you\x27ll", "youll"), ("you\x27re", "youre"), ("you\x27ve", "youve")]

/-- The normalizer defined inside `map_expanded_to_contraction`
(`normalize_for_map`): textually the same operation as `normalize_word`,
duplicated here as it is in the source. -/
def normalizeForMap (s : String) : String := pyLower (stripPunct (nfkc s))

/-- `map_expanded_to_contraction` from `src/compare.py`: normalize the
whole text, then for each mapping entry in table order replace every
occurrence of the normalized key by the contraction. -/
def map_expanded_to_contraction (text : String) : String :=
  contraction_map.foldl (fun t p => pyReplace t (normalizeForMap p.1) p.2)
    (normalizeForMap text)

/-- The compound table of `split_compound_words`, in dictionary insertion
order.  The source dict literal repeats the keys `review`, `replay` and
`retake` with identical values; dictionary semantics keep a single entry
at the first position, which is what this list records. -/
def compounds : List (String × String) :=
  [("coldblooded", "cold blooded"), ("warmblooded", "warm blooded"), ("toadstool", "toad stool"),
    ("bullfrog", "bull frog"), ("tadpole", "tad pole"), ("treefrog", "tree frog"),
    ("springpeeper", "spring peeper"), ("woodfrog", "wood frog"), ("spadefoot", "spade foot"),
    ("newtlike", "newt like"), ("frogspawn", "frog spawn"), ("pondweed", "pond weed"),
    ("nighttime", "night time"), ("seethrough", "see through"), ("waterhole", "water hole"),
    ("rainforest", "rain forest"), ("sunbaked", "sun baked"), ("backbone", "back bone"),
    ("eggsac", "egg sac"), ("overwinter", "over winter"), ("underwater", "under water"),
    ("daylight", "day light"), ("earthworm", "earth worm"), ("insectlike", "insect like"),
    ("mouthpart", "mouth part"), ("tailfin", "tail fin"), ("webbedfeet", "webbed feet"),
    ("webbedfoot", "webbed foot"), ("notebook", "note book"), ("blackboard", "black board"),
    ("classroom", "class room"), ("sunflower", "sun flower"), ("football", "foot ball"),
    ("basketball", "basket ball"), ("baseball", "base ball"), ("playground", "play ground"),
    ("schoolyard", "school yard"), ("lunchbox", "lunch box"), ("toothbrush", "tooth brush"),
    ("hairbrush", "hair brush"), ("bedroom", "bed room"), ("bathroom", "bath room"),
    ("livingroom", "living room"), ("diningroom", "dining room"), ("bookshelf", "book shelf"),
    ("bookshelves", "book shelves"), ("snowman", "snow man"), ("raincoat", "rain coat"),
    ("fireman", "fire man"), ("policeman", "police man"), ("mailbox", "mail box"),
    ("sandbox", "sand box"), ("doghouse", "dog house"), ("catfish", "cat fish"),
    ("goldfish", "gold fish"), ("starfish", "star fish"), ("cupcake", "cup cake"),
    ("birthdaycake", "birthday cake"), ("pancake", "pan cake"), ("cheesecake", "cheese cake"),
    ("popcorn", "pop corn"), ("peanutbutter", "peanut butter"), ("strawberry", "straw berry"),
    ("blueberry", "blue berry"), ("raspberry", "rasp berry"), ("blackberry", "black berry"),
    ("greenhouse", "green house"), ("lighthouse", "light house"), ("wheelchair", "wheel chair"),
    ("newspaper", "news paper"), ("airport", "air port"), ("rainbow", "rain bow"),
    ("moonlight", "moon light"), ("sunlight", "sun light"), ("starlight", "star light"),
    ("daydream", "day dream"), ("nightmare", "night mare"), ("overcoat", "over coat"),
    ("underdog", "under dog"), ("overhead", "over head"), ("underfoot", "under foot"),
    ("upstairs", "up stairs"), ("downstairs", "down stairs"), ("outdoors", "out doors"),
    ("indoors", "in doors"), ("outfield", "out field"), ("infield", "in field"),
    ("outlaw", "out law"), ("inlet", "in let"), ("outlet", "out let"),
    ("upset", "up set"), ("downpour", "down pour"), ("outcome", "out come"),
    ("income", "in come"), ("outbreak", "out break"), ("input", "in put"),
    ("output", "out put"), ("outlook", "out look"), ("insight", "in sight"),
    ("oversight", "over sight"), ("oversee", "over see"), ("overdo", "over do"),
    ("undo", "un do"), ("redo", "re do"), ("preview", "pre view"),
    ("review", "re view"), ("replay", "re play"), ("retake", "re take"),
    ("rebuild", "re build"), ("recycle", "re cycle"), ("recharge", "re charge"),
    ("rearrange", "re arrange"), ("reappear", "re appear"), ("reapply", "re apply"),
    ("reconnect", "re connect"), ("reconsider", "re consider"), ("reconstruct", "re construct"),
    ("recount", "re count"), ("recover", "re cover"), ("recreate", "re create"),
    ("redefine", "re define"), ("rediscover", "re discover"), ("reenter", "re enter"),
    ("refill", "re fill"), ("refocus", "re focus"), ("refresh", "re fresh"),
    ("regain", "re gain"), ("regrow", "re grow"), ("rehash", "re hash"),
    ("reheat", "re heat"), ("rejoin", "re join"), ("relive", "re live"),
    ("remake", "re make"), ("rematch", "re match"), ("remove", "re move"),
    ("rename", "re name"), ("renew", "re new"), ("reopen", "re open"),
    ("replace", "re place"), ("report", "re port"), ("resend", "re send"),
    ("reset", "re set"), ("resign", "re sign"), ("resist", "re sist"),
    ("resolve", "re solve"), ("resort", "re sort"), ("resource", "re source"),
    ("respect", "re spect"), ("respond", "re spond"), ("restart", "re start"),
    ("restore", "re store"), ("restrict", "re strict"), ("result", "re sult"),
    ("resume", "re sume"), ("retell", "re tell"), ("retire", "re tire"),
    ("return", "re turn"), ("reuse", "re use"), ("reveal", "re veal"),
    ("revenge", "re venge"), ("reverse", "re verse"), ("revise", "re vise"),
    ("revisit", "re visit"), ("revoke", "re voke"), ("reward", "re ward"),
    ("rewind", "re wind"), ("rewrite", "re write")]
-- entries: 167


/-- Scanner behind `split_compound_words`: case-insensitive whole-word
replacement, word boundaries evaluated against the original text as
`re.sub` does.  Every pattern is a nonempty all-letter word, so a match
consumes at least one character (fuel `length` suffices) and the character
before the continuation point is a letter (`prevW` becomes `true`). -/
def replaceWordCIF (pat repl : List Char) : Nat → Bool → List Char → List Char
  | 0, _, _ => []
  | _ + 1, _, [] => []
  | fuel + 1, prevW, c :: cs =>
    if prevW = false ∧ pat ≠ [] ∧ ciMatch pat (c :: cs) = true
        ∧ isBoundaryAfter ((c :: cs).drop pat.length) = true then
      repl ++ replaceWordCIF pat repl fuel true ((c :: cs).drop pat.length)
    else c :: replaceWordCIF pat repl fuel (isWordChar c) cs

/-- `split_compound_words` from `src/compare.py`: for each table entry,
replace every case-insensitive whole-word occurrence of the compound by
its split form. -/
def split_compound_words (text : String) : String :=
  compounds.foldl
    (fun t p => String.mk (replaceWordCIF p.1.data p.2.data t.data.length false t.data))
    text

/-!
## Lemmas: runs
-/

theorem commonRun_nil_left [DecidableEq α] (ys : List α) : commonRun ([] : List α) ys = 0 := by
  cases ys <;> rfl

theorem commonRun_nil_right [DecidableEq α] (xs : List α) : commonRun xs ([] : List α) = 0 := by
  cases xs <;> rfl

theorem commonRun_self [DecidableEq α] (xs : List α) : commonRun xs xs = xs.length := by
  induction xs with
  | nil => rfl
  | cons x xs ih => simp [commonRun, ih]

theorem commonRun_le_left [DecidableEq α] :
    ∀ xs ys : List α, commonRun xs ys ≤ xs.length
  | [], ys => by simp [commonRun_nil_left]
  | _ :: _, [] => by simp [commonRun_nil_right]
  | x :: xs, y :: ys => by
    by_cases h : x = y
    · simpa [commonRun, h] using commonRun_le_left xs ys
    · simp [commonRun, h]

theorem commonRun_le_right [DecidableEq α] :
    ∀ xs ys : List α, commonRun xs ys ≤ ys.length
  | [], ys => by simp [commonRun_nil_left]
  | _ :: _, [] => by simp [commonRun_nil_right]
  | x :: xs, y :: ys => by
    by_cases h : x = y
    · simpa [commonRun, h] using commonRun_le_right xs ys
    · simp [commonRun, h]

theorem commonRun_drop_commonRun [DecidableEq α] :
    ∀ xs ys : List α,
      commonRun (xs.drop (commonRun xs ys)) (ys.drop (commonRun xs ys)) = 0
  | [], ys => by simp [commonRun_nil_left]
  | _ :: _, [] => by simp [commonRun_nil_right]
  | x :: xs, y :: ys => by
    by_cases h : x = y
    · simpa [commonRun, h] using commonRun_drop_commonRun xs ys
    · simp [commonRun, h]

theorem commonRun_pos [DecidableEq α] {xs ys : List α} (h : 0 < commonRun xs ys) :
    ∃ z zs ws, xs = z :: zs ∧ ys = z :: ws := by
  match xs, ys with
  | [], ys => simp [commonRun_nil_left] at h
  | _ :: _, [] => simp [commonRun_nil_right] at h
  | x :: xs, y :: ys =>
    by_cases hxy : x = y
    · exact ⟨x, xs, ys, rfl, by rw [hxy]⟩
    · simp [commonRun, hxy] at h

theorem popFreeRun_nil [DecidableEq α] :
    ∀ xs ys : List α, popFreeRun ([] : List α) xs ys = commonRun xs ys
  | [], ys => by cases ys <;> rfl
  | _ :: _, [] => rfl
  | x :: xs, y :: ys => by
    by_cases h : x = y
    · simp [popFreeRun, commonRun, h, popFreeRun_nil xs ys]
    · simp [popFreeRun, commonRun, h]

theorem popFreeRun_le_left [DecidableEq α] (pop : List α) :
    ∀ xs ys : List α, popFreeRun pop xs ys ≤ xs.length
  | [], ys => by cases ys <;> simp [popFreeRun]
  | _ :: _, [] => by simp [popFreeRun]
  | x :: xs, y :: ys => by
    simp only [popFreeRun, List.length_cons]
    split
    · exact Nat.succ_le_succ (popFreeRun_le_left pop xs ys)
    · exact Nat.zero_le _

theorem popFreeRun_le_right [DecidableEq α] (pop : List α) :
    ∀ xs ys : List α, popFreeRun pop xs ys ≤ ys.length
  | [], ys => by cases ys <;> simp [popFreeRun]
  | _ :: _, [] => by simp [popFreeRun]
  | x :: xs, y :: ys => by
    simp only [popFreeRun, List.length_cons]
    split
    · exact Nat.succ_le_succ (popFreeRun_le_right pop xs ys)
    · exact Nat.zero_le _

theorem popFreeRun_le_self_left [DecidableEq α] (pop : List α) :
    ∀ xs ys : List α, popFreeRun pop xs ys ≤ popFreeRun pop xs xs
  | [], ys => by cases ys <;> simp [popFreeRun]
  | _ :: _, [] => by simp [popFreeRun]
  | x :: xs, y :: ys => by
    simp only [popFreeRun]
    split
    · rename_i h
      obtain ⟨rfl, hc⟩ := h
      split
      · exact Nat.succ_le_succ (popFreeRun_le_self_left pop xs ys)
      · rename_i h2
        exact (h2 ⟨trivial, hc⟩).elim
    · exact Nat.zero_le _

theorem popFreeRun_le_self_right [DecidableEq α] (pop : List α) :
    ∀ xs ys : List α, popFreeRun pop xs ys ≤ popFreeRun pop ys ys
  | [], ys => by cases ys <;> simp [popFreeRun]
  | _ :: _, [] => by simp [popFreeRun]
  | x :: xs, y :: ys => by
    simp only [popFreeRun]
    split
    · rename_i h
      obtain ⟨rfl, hc⟩ := h
      split
      · exact Nat.succ_le_succ (popFreeRun_le_self_right pop xs ys)
      · rename_i h2
        exact (h2 ⟨trivial, hc⟩).elim
    · exact Nat.zero_le _

/-!
## Lemmas: the candidate scan
-/

theorem scanBest_le_init (f : Nat × Nat → Nat) :
    ∀ (l : List (Nat × Nat)) (best : Nat × Nat × Nat),
      best.2.2 ≤ (scanBest f l best).2.2
  | [], best => le_refl _
  | p :: ps, best => by
    by_cases h : best.2.2 < f p
    · simpa [scanBest, h] using le_of_lt (lt_of_lt_of_le h (scanBest_le_init f ps (p.1, p.2, f p)))
    · simpa [scanBest, h] using scanBest_le_init f ps best

theorem scanBest_ge (f : Nat × Nat → Nat) :
    ∀ (l : List (Nat × Nat)) (best : Nat × Nat × Nat),
      ∀ p ∈ l, f p ≤ (scanBest f l best).2.2
  | [], _, p, hp => by simp at hp
  | q :: ps, best, p, hp => by
    rcases List.mem_cons.mp hp with rfl | hp
    · by_cases h : best.2.2 < f p
      · simpa [scanBest, h] using scanBest_le_init f ps (p.1, p.2, f p)
      · have h2 : f p ≤ best.2.2 := Nat.le_of_not_lt h
        simpa [scanBest, h] using le_trans h2 (scanBest_le_init f ps best)
    · by_cases h : best.2.2 < f q
      · simpa [scanBest, h] using scanBest_ge f ps (q.1, q.2, f q) p hp
      · simpa [scanBest, h] using scanBest_ge f ps best p hp

theorem scanBest_attain (f : Nat × Nat → Nat) :
    ∀ (l : List (Nat × Nat)) (best : Nat × Nat × Nat),
      scanBest f l best = best ∨
        ∃ l₁ l₂, l = l₁ ++ ((scanBest f l best).1, (scanBest f l best).2.1) :: l₂ ∧
          f ((scanBest f l best).1, (scanBest f l best).2.1) = (scanBest f l best).2.2 ∧
          best.2.2 < (scanBest f l best).2.2 ∧
          ∀ p ∈ l₁, f p < (scanBest f l best).2.2
  | [], best => Or.inl rfl
  | q :: ps, best => by
    by_cases h : best.2.2 < f q
    · have hrw : scanBest f (q :: ps) best = scanBest f ps (q.1, q.2, f q) := by
        simp [scanBest, h]
      rw [hrw]
      rcases scanBest_attain f ps (q.1, q.2, f q) with heq | ⟨l₁, l₂, hsplit, hf, hlt, hall⟩
      · rw [heq]
        exact Or.inr ⟨[], ps, by simp, rfl, h, by simp⟩
      · refine Or.inr ⟨q :: l₁, l₂, by exact congrArg (List.cons q) hsplit, hf, lt_trans h hlt, ?_⟩
        intro p hp
        rcases List.mem_cons.mp hp with rfl | hp
        · exact hlt
        · exact hall p hp
    · have hrw : scanBest f (q :: ps) best = scanBest f ps best := by
        simp [scanBest, h]
      rw [hrw]
      rcases scanBest_attain f ps best with heq | ⟨l₁, l₂, hsplit, hf, hlt, hall⟩
      · exact Or.inl heq
      · refine Or.inr ⟨q :: l₁, l₂, by exact congrArg (List.cons q) hsplit, hf, hlt, ?_⟩
        intro p hp
        rcases List.mem_cons.mp hp with rfl | hp
        · exact lt_of_le_of_lt (Nat.le_of_not_lt h) hlt
        · exact hall p hp

/-!
## Lemmas: the pair list
-/

theorem mem_pairList {m n : Nat} {p : Nat × Nat} :
    p ∈ pairList m n ↔ p.1 < m ∧ p.2 < n := by
  obtain ⟨i, j⟩ := p
  simp only [pairList, List.mem_flatMap, List.mem_map, List.mem_range]
  constructor
  · rintro ⟨a, ha, j', hj', h⟩
    cases h
    exact ⟨ha, hj'⟩
  · rintro ⟨hi, hj⟩
    exact ⟨i, hi, j, hj, rfl⟩

theorem pairwise_pairList (m n : Nat) : (pairList m n).Pairwise pairLexLT := by
  induction m with
  | zero => simp [pairList]
  | succ m ih =>
    rw [pairList, List.range_succ, List.flatMap_append, List.pairwise_append]
    refine ⟨ih, ?_, ?_⟩
    · rw [List.flatMap_singleton, List.pairwise_map]
      exact (List.pairwise_lt_range n).imp (fun h => Or.inr ⟨rfl, h⟩)
    · intro x hx y hy
      rw [List.flatMap_singleton] at hy
      obtain ⟨j, _, rfl⟩ := List.mem_map.mp hy
      exact Or.inl (mem_pairList.mp hx).1

/-!
## Lemmas: the best popular-free block
-/

theorem bestJF_spec [DecidableEq α] (pop a b : List α) :
    (∀ p ∈ pairList a.length b.length,
        popFreeRun pop (a.drop p.1) (b.drop p.2) ≤ (bestJF pop a b).2.2) ∧
      (bestJF pop a b = (0, 0, 0) ∨
        (((bestJF pop a b).1, (bestJF pop a b).2.1) ∈ pairList a.length b.length ∧
          popFreeRun pop (a.drop (bestJF pop a b).1) (b.drop (bestJF pop a b).2.1)
            = (bestJF pop a b).2.2 ∧
          0 < (bestJF pop a b).2.2 ∧
          ∀ q ∈ pairList a.length b.length,
            popFreeRun pop (a.drop q.1) (b.drop q.2) = (bestJF pop a b).2.2 →
              ((bestJF pop a b).1, (bestJF pop a b).2.1) = q ∨
                pairLexLT ((bestJF pop a b).1, (bestJF pop a b).2.1) q)) := by
  constructor
  · exact fun p hp => scanBest_ge (fun p => popFreeRun pop (a.drop p.1) (b.drop p.2))
      (pairList a.length b.length) (0, 0, 0) p hp
  · rcases scanBest_attain (fun p => popFreeRun pop (a.drop p.1) (b.drop p.2))
        (pairList a.length b.length) (0, 0, 0) with heq | ⟨l₁, l₂, hsplit, hf, hlt, hall⟩
    · exact Or.inl heq
    · refine Or.inr ⟨?_, hf, hlt, ?_⟩
      · rw [show (pairList a.length b.length) =
            l₁ ++ ((bestJF pop a b).1, (bestJF pop a b).2.1) :: l₂ from hsplit]
        exact List.mem_append_right _ (List.mem_cons_self _ _)
      · intro q hq hfq
        rw [show (pairList a.length b.length) =
            l₁ ++ ((bestJF pop a b).1, (bestJF pop a b).2.1) :: l₂ from hsplit] at hq
        rcases List.mem_append.mp hq with hq1 | hq2
        · exact absurd hfq (ne_of_lt (hall q hq1))
        · rcases List.mem_cons.mp hq2 with rfl | hq3
          · exact Or.inl rfl
          · have hpw := pairwise_pairList a.length b.length
            rw [show (pairList a.length b.length) =
                l₁ ++ ((bestJF pop a b).1, (bestJF pop a b).2.1) :: l₂ from hsplit] at hpw
            have hpw2 := (List.pairwise_append.mp hpw).2.1
            exact Or.inr ((List.pairwise_cons.mp hpw2).1 q hq3)

theorem bestJF_bound_left [DecidableEq α] (pop a b : List α) :
    (bestJF pop a b).1 + (bestJF pop a b).2.2 ≤ a.length := by
  rcases (bestJF_spec pop a b).2 with h0 | ⟨hmem, hf, _, _⟩
  · rw [h0]
    exact Nat.zero_le _
  · have hi := (mem_pairList.mp hmem).1
    have h2 : (bestJF pop a b).2.2 ≤ (a.drop (bestJF pop a b).1).length :=
      hf ▸ popFreeRun_le_left pop _ _
    rw [List.length_drop] at h2
    omega

theorem bestJF_bound_right [DecidableEq α] (pop a b : List α) :
    (bestJF pop a b).2.1 + (bestJF pop a b).2.2 ≤ b.length := by
  rcases (bestJF_spec pop a b).2 with h0 | ⟨hmem, hf, _, _⟩
  · rw [h0]
    exact Nat.zero_le _
  · have hj := (mem_pairList.mp hmem).2
    have h2 : (bestJF pop a b).2.2 ≤ (b.drop (bestJF pop a b).2.1).length :=
      hf ▸ popFreeRun_le_right pop _ _
    rw [List.length_drop] at h2
    omega

theorem findLongestMatch_bounds [DecidableEq α] (pop a b : List α) :
    (findLongestMatch pop a b).1 + (findLongestMatch pop a b).2.2 ≤ a.length ∧
      (findLongestMatch pop a b).2.1 + (findLongestMatch pop a b).2.2 ≤ b.length := by
  have hA := bestJF_bound_left pop a b
  have hB := bestJF_bound_right pop a b
  have hback1 : commonRun (a.take (bestJF pop a b).1).reverse
      (b.take (bestJF pop a b).2.1).reverse ≤ (bestJF pop a b).1 := by
    have := commonRun_le_left (a.take (bestJF pop a b).1).reverse
      (b.take (bestJF pop a b).2.1).reverse
    rw [List.length_reverse, List.length_take] at this
    omega
  have hback2 : commonRun (a.take (bestJF pop a b).1).reverse
      (b.take (bestJF pop a b).2.1).reverse ≤ (bestJF pop a b).2.1 := by
    have := commonRun_le_right (a.take (bestJF pop a b).1).reverse
      (b.take (bestJF pop a b).2.1).reverse
    rw [List.length_reverse, List.length_take] at this
    omega
  have hfwd1 : commonRun (a.drop ((bestJF pop a b).1 + (bestJF pop a b).2.2))
      (b.drop ((bestJF pop a b).2.1 + (bestJF pop a b).2.2))
        ≤ a.length - ((bestJF pop a b).1 + (bestJF pop a b).2.2) := by
    have := commonRun_le_left (a.drop ((bestJF pop a b).1 + (bestJF pop a b).2.2))
      (b.drop ((bestJF pop a b).2.1 + (bestJF pop a b).2.2))
    rwa [List.length_drop] at this
  have hfwd2 : commonRun (a.drop ((bestJF pop a b).1 + (bestJF pop a b).2.2))
      (b.drop ((bestJF pop a b).2.1 + (bestJF pop a b).2.2))
        ≤ b.length - ((bestJF pop a b).2.1 + (bestJF pop a b).2.2) := by
    have := commonRun_le_right (a.drop ((bestJF pop a b).1 + (bestJF pop a b).2.2))
      (b.drop ((bestJF pop a b).2.1 + (bestJF pop a b).2.2))
    rwa [List.length_drop] at this
  simp only [findLongestMatch]
  constructor <;> omega

theorem bestJF_self_diag [DecidableEq α] (pop a : List α) :
    (bestJF pop a a).1 = (bestJF pop a a).2.1 := by
  rcases (bestJF_spec pop a a).2 with h0 | ⟨hmem, hf, hpos, hmin⟩
  · rw [h0]
  · by_contra hne
    have hub := (bestJF_spec pop a a).1
    have hi := (mem_pairList.mp hmem).1
    have hj := (mem_pairList.mp hmem).2
    have hdm : min (bestJF pop a a).1 (bestJF pop a a).2.1 < a.length := by omega
    have hdd : popFreeRun pop (a.drop (min (bestJF pop a a).1 (bestJF pop a a).2.1))
        (a.drop (min (bestJF pop a a).1 (bestJF pop a a).2.1)) = (bestJF pop a a).2.2 := by
      apply le_antisymm
      · exact hub (min (bestJF pop a a).1 (bestJF pop a a).2.1,
          min (bestJF pop a a).1 (bestJF pop a a).2.1) (mem_pairList.mpr ⟨hdm, hdm⟩)
      · rcases Nat.lt_or_ge (bestJF pop a a).1 (bestJF pop a a).2.1 with hij | hij
        · rw [min_eq_left (le_of_lt hij)]
          exact hf ▸ popFreeRun_le_self_left pop _ _
        · rw [min_eq_right hij]
          exact hf ▸ popFreeRun_le_self_right pop _ _
    rcases hmin (min (bestJF pop a a).1 (bestJF pop a a).2.1,
        min (bestJF pop a a).1 (bestJF pop a a).2.1)
        (mem_pairList.mpr ⟨hdm, hdm⟩) hdd with heq | hlex
    · have h1 := congrArg Prod.fst heq
      have h2 := congrArg Prod.snd heq
      simp only at h1 h2
      omega
    · rcases hlex with h1 | ⟨h1, h2⟩ <;> simp only at h1 <;> omega

theorem findLongestMatch_self [DecidableEq α] (pop a : List α) :
    findLongestMatch pop a a = (0, 0, a.length) := by
  have hdiag := bestJF_self_diag pop a
  have hik := bestJF_bound_left pop a a
  have hback : commonRun (a.take (bestJF pop a a).1).reverse
      (a.take (bestJF pop a a).1).reverse = (bestJF pop a a).1 := by
    rw [commonRun_self, List.length_reverse, List.length_take]
    omega
  have hfwd : commonRun (a.drop ((bestJF pop a a).1 + (bestJF pop a a).2.2))
      (a.drop ((bestJF pop a a).1 + (bestJF pop a a).2.2))
        = a.length - ((bestJF pop a a).1 + (bestJF pop a a).2.2) := by
    rw [commonRun_self, List.length_drop]
  simp only [findLongestMatch, ← hdiag, hback, hfwd]
  have h1 : (bestJF pop a a).1 - (bestJF pop a a).1 = 0 := Nat.sub_self _
  have h3 : (bestJF pop a a).2.2 + (bestJF pop a a).1
      + (a.length - ((bestJF pop a a).1 + (bestJF pop a a).2.2)) = a.length := by
    omega
  rw [h1, h3]

/-!
## Lemmas: the classic algorithm
-/

theorem firstSuch_split {p : Nat → Bool} :
    ∀ {l : List Nat} {x : Nat}, firstSuch p l = some x →
      p x = true ∧ ∃ l₁ l₂, l = l₁ ++ x :: l₂ ∧ ∀ y ∈ l₁, p y = false
  | [], x, h => by simp [firstSuch] at h
  | a :: as, x, h => by
    by_cases hp : p a = true
    · rw [firstSuch, if_pos hp] at h
      obtain rfl : a = x := Option.some.inj h
      exact ⟨hp, [], as, rfl, by simp⟩
    · rw [firstSuch, if_neg hp] at h
      obtain ⟨hx, l₁, l₂, hsp, hall⟩ := firstSuch_split h
      refine ⟨hx, a :: l₁, l₂, by rw [hsp, List.cons_append], ?_⟩
      intro y hy
      rcases List.mem_cons.mp hy with rfl | hy
      · exact Bool.not_eq_true _ ▸ (by simpa using hp)
      · exact hall y hy

theorem firstSuch_isSome {p : Nat → Bool} :
    ∀ {l : List Nat}, (∃ x ∈ l, p x = true) → ∃ y, firstSuch p l = some y
  | [], h => by simp at h
  | a :: as, h => by
    by_cases hp : p a = true
    · exact ⟨a, by rw [firstSuch, if_pos hp]⟩
    · obtain ⟨x, hx, hpx⟩ := h
      rcases List.mem_cons.mp hx with rfl | hx
      · exact absurd hpx hp
      · obtain ⟨y, hy⟩ := firstSuch_isSome ⟨x, hx, hpx⟩
        exact ⟨y, by rw [firstSuch, if_neg hp]; exact hy⟩

theorem firstSuch_range_min {p : Nat → Bool} {n x : Nat}
    (h : firstSuch p (List.range n) = some x) :
    p x = true ∧ x < n ∧ ∀ y, y < x → p y = false := by
  obtain ⟨hx, l₁, l₂, hsp, hall⟩ := firstSuch_split h
  have hxmem : x ∈ List.range n := by
    rw [hsp]
    exact List.mem_append_right _ (List.mem_cons_self _ _)
  refine ⟨hx, List.mem_range.mp hxmem, ?_⟩
  intro y hy
  have hymem : y ∈ List.range n := List.mem_range.mpr (lt_trans hy (List.mem_range.mp hxmem))
  rw [hsp] at hymem
  rcases List.mem_append.mp hymem with h1 | h2
  · exact hall y h1
  · rcases List.mem_cons.mp h2 with rfl | h3
    · omega
    · have hpw := List.pairwise_lt_range n
      rw [hsp] at hpw
      have := (List.pairwise_append.mp hpw).2.1
      have hxy := (List.pairwise_cons.mp this).1 y h3
      omega

theorem foldr_max_ge : ∀ (l : List Nat), ∀ x ∈ l, x ≤ l.foldr max 0
  | [], x, hx => by simp at hx
  | a :: as, x, hx => by
    rcases List.mem_cons.mp hx with rfl | hx
    · exact le_max_left _ _
    · exact le_trans (foldr_max_ge as x hx) (le_max_right _ _)

theorem foldr_max_attain : ∀ l : List Nat, l.foldr max 0 = 0 ∨ l.foldr max 0 ∈ l
  | [] => Or.inl rfl
  | a :: as => by
    rcases foldr_max_attain as with h | h
    · rcases Nat.le_total a (as.foldr max 0) with hle | hle
      · exact Or.inl (by simpa [List.foldr, max_eq_right hle] using h)
      · exact Or.inr (by simp [List.foldr, max_eq_left hle])
    · rcases Nat.le_total a (as.foldr max 0) with hle | hle
      · refine Or.inr (List.mem_cons_of_mem _ ?_)
        rwa [show (a :: as).foldr max 0 = max a (as.foldr max 0) from rfl, max_eq_right hle]
      · exact Or.inr (by simp [List.foldr, max_eq_left hle])

theorem maxRunVal_ge [DecidableEq α] (a b : List α) {p : Nat × Nat}
    (hp : p ∈ pairList a.length b.length) :
    commonRun (a.drop p.1) (b.drop p.2) ≤ maxRunVal a b := by
  refine foldr_max_ge _ _ ?_
  exact List.mem_map.mpr ⟨p, hp, rfl⟩

theorem maxRunVal_attain [DecidableEq α] (a b : List α) :
    maxRunVal a b = 0 ∨
      ∃ p ∈ pairList a.length b.length,
        commonRun (a.drop p.1) (b.drop p.2) = maxRunVal a b := by
  rcases foldr_max_attain ((pairList a.length b.length).map
      (fun p => commonRun (a.drop p.1) (b.drop p.2))) with h | h
  · exact Or.inl h
  · obtain ⟨p, hp, hv⟩ := List.mem_map.mp h
    exact Or.inr ⟨p, hp, hv⟩

theorem commonRun_whole_le_max [DecidableEq α] (a b : List α) :
    commonRun a b ≤ maxRunVal a b := by
  cases a with
  | nil => simp [commonRun_nil_left]
  | cons x xs =>
    cases b with
    | nil => simp [commonRun_nil_right]
    | cons y ys =>
      have h00 : ((0, 0) : Nat × Nat) ∈ pairList (x :: xs).length (y :: ys).length :=
        mem_pairList.mpr ⟨by simp, by simp⟩
      simpa using maxRunVal_ge (x :: xs) (y :: ys) h00

theorem reverse_take_eq_cons {l : List α} {i : Nat} (h0 : 0 < i) (h1 : i ≤ l.length) :
    (l.take i).reverse = l.get ⟨i - 1, by omega⟩ :: (l.take (i - 1)).reverse := by
  have he : i - 1 + 1 = i := by omega
  conv_lhs => rw [← he, List.take_succ]
  rw [List.getElem?_eq_getElem (by omega), List.reverse_append]
  simp

theorem back_pos [DecidableEq α] {a b : List α} {i j : Nat} (hi : i ≤ a.length)
    (hj : j ≤ b.length) (h : 0 < commonRun (a.take i).reverse (b.take j).reverse) :
    ∃ (h0i : 0 < i) (h0j : 0 < j) (hi2 : i - 1 < a.length) (hj2 : j - 1 < b.length),
      a[i - 1] = b[j - 1] := by
  obtain ⟨z, zs, ws, hz1, hz2⟩ := commonRun_pos h
  have hine : a.take i ≠ [] := by
    intro hzz
    rw [hzz] at hz1
    simp at hz1
  have hjne : b.take j ≠ [] := by
    intro hzz
    rw [hzz] at hz2
    simp at hz2
  have h0i : 0 < i := by
    rcases Nat.eq_zero_or_pos i with rfl | h2
    · simp at hine
    · exact h2
  have h0j : 0 < j := by
    rcases Nat.eq_zero_or_pos j with rfl | h2
    · simp at hjne
    · exact h2
  have hia : 0 < a.length := by
    rcases Nat.eq_zero_or_pos a.length with h2 | h2
    · rw [List.length_eq_zero.mp h2] at hine
      simp at hine
    · exact h2
  have hjb : 0 < b.length := by
    rcases Nat.eq_zero_or_pos b.length with h2 | h2
    · rw [List.length_eq_zero.mp h2] at hjne
      simp at hjne
    · exact h2
  have e1 := reverse_take_eq_cons h0i hi
  have e2 := reverse_take_eq_cons h0j hj
  rw [e1] at hz1
  rw [e2] at hz2
  have hi2 : i - 1 < a.length := by omega
  have hj2 : j - 1 < b.length := by omega
  refine ⟨h0i, h0j, hi2, hj2, ?_⟩
  have q1 : a.get ⟨i - 1, hi2⟩ = z := (List.cons.injEq .. ▸ hz1).1
  have q2 : b.get ⟨j - 1, hj2⟩ = z := (List.cons.injEq .. ▸ hz2).1
  exact q1.trans q2.symm

theorem commonRun_pred [DecidableEq α] {a b : List α} {i j : Nat}
    (hi : i - 1 < a.length) (hj : j - 1 < b.length) (h0i : 0 < i) (h0j : 0 < j)
    (heq : a[i - 1] = b[j - 1]) :
    commonRun (a.drop (i - 1)) (b.drop (j - 1)) = commonRun (a.drop i) (b.drop j) + 1 := by
  rw [List.drop_eq_getElem_cons hi, List.drop_eq_getElem_cons hj]
  have e1 : i - 1 + 1 = i := by omega
  have e2 : j - 1 + 1 = j := by omega
  rw [e1, e2]
  simp [commonRun, heq]

/-- With the autojunk heuristic inactive, `find_longest_match` computes
exactly the classic longest-run search with the spec's tie-break. -/
theorem findLongestMatch_nojunk [DecidableEq α] (a b : List α) :
    findLongestMatch ([] : List α) a b = classicFind a b := by
  obtain ⟨hub, hattain⟩ := bestJF_spec ([] : List α) a b
  by_cases hK : maxRunVal a b = 0
  · have hbz : bestJF ([] : List α) a b = (0, 0, 0) := by
      rcases hattain with h0 | ⟨hmem, hf, hpos, _⟩
      · exact h0
      · exfalso
        have h1 : popFreeRun ([] : List α) (a.drop (bestJF ([] : List α) a b).1)
            (b.drop (bestJF ([] : List α) a b).2.1) ≤ 0 := by
          rw [popFreeRun_nil]
          exact hK ▸ maxRunVal_ge a b hmem
        omega
    have hcr : commonRun a b = 0 :=
      Nat.le_antisymm (hK ▸ commonRun_whole_le_max a b) (Nat.zero_le _)
    simp only [findLongestMatch, hbz, List.take_zero, List.reverse_nil, List.drop_zero,
      Nat.add_zero, Nat.zero_add, Nat.sub_self, commonRun_nil_left, hcr]
    simp only [classicFind]
    rw [if_pos hK]
  · obtain ⟨p₀, hp₀mem, hp₀⟩ := (maxRunVal_attain a b).resolve_left hK
    have hkK : (bestJF ([] : List α) a b).2.2 = maxRunVal a b := by
      apply Nat.le_antisymm
      · rcases hattain with h0 | ⟨hmem, hf, _, _⟩
        · rw [h0]
          exact Nat.zero_le _
        · rw [← hf, popFreeRun_nil]
          exact maxRunVal_ge a b hmem
      · have h2 := hub p₀ hp₀mem
        rwa [popFreeRun_nil, hp₀] at h2
    have hpos : 0 < (bestJF ([] : List α) a b).2.2 := hkK ▸ Nat.pos_of_ne_zero hK
    rcases hattain with h0 | ⟨hmem, hf, _, hmin⟩
    · rw [h0] at hpos
      simp at hpos
    have hbrun : commonRun (a.drop (bestJF ([] : List α) a b).1)
        (b.drop (bestJF ([] : List α) a b).2.1) = maxRunVal a b := by
      rw [← popFreeRun_nil, hf, hkK]
    have houter : ∃ x ∈ List.range a.length,
        (fun i => (List.range b.length).any
          (fun j => commonRun (a.drop i) (b.drop j) == maxRunVal a b)) x = true := by
      refine ⟨(bestJF ([] : List α) a b).1,
        List.mem_range.mpr (mem_pairList.mp hmem).1, ?_⟩
      simp only [List.any_eq_true]
      exact ⟨(bestJF ([] : List α) a b).2.1,
        List.mem_range.mpr (mem_pairList.mp hmem).2, beq_iff_eq.mpr hbrun⟩
    obtain ⟨i₀, hi₀⟩ := firstSuch_isSome houter
    obtain ⟨hpi₀, hi₀n, hi₀min⟩ := firstSuch_range_min hi₀
    have hinner : ∃ x ∈ List.range b.length,
        (fun j => commonRun (a.drop i₀) (b.drop j) == maxRunVal a b) x = true := by
      simp only [List.any_eq_true] at hpi₀
      exact hpi₀
    obtain ⟨j₀, hj₀⟩ := firstSuch_isSome hinner
    obtain ⟨hpj₀, hj₀n, hj₀min⟩ := firstSuch_range_min hj₀
    have hrunij : commonRun (a.drop i₀) (b.drop j₀) = maxRunVal a b := beq_iff_eq.mp hpj₀
    have hple : i₀ ≤ (bestJF ([] : List α) a b).1 := by
      by_contra hlt
      push_neg at hlt
      have hfalse := hi₀min (bestJF ([] : List α) a b).1 hlt
      have htrue : ((List.range b.length).any
          (fun j => commonRun (a.drop (bestJF ([] : List α) a b).1) (b.drop j)
            == maxRunVal a b)) = true := by
        simp only [List.any_eq_true]
        exact ⟨(bestJF ([] : List α) a b).2.1,
          List.mem_range.mpr (mem_pairList.mp hmem).2, beq_iff_eq.mpr hbrun⟩
      rw [hfalse] at htrue
      exact Bool.false_ne_true htrue
    have hpair : ((bestJF ([] : List α) a b).1, (bestJF ([] : List α) a b).2.1)
        = (i₀, j₀) := by
      have hfij : popFreeRun ([] : List α) (a.drop i₀) (b.drop j₀)
          = (bestJF ([] : List α) a b).2.2 := by
        rw [popFreeRun_nil, hrunij, hkK]
      rcases hmin (i₀, j₀) (mem_pairList.mpr ⟨hi₀n, hj₀n⟩) hfij with heq | hlex
      · exact heq
      · exfalso
        rcases hlex with h1 | ⟨h1, h2⟩
        · simp only at h1
          omega
        · simp only at h1 h2
          have hjle : j₀ ≤ (bestJF ([] : List α) a b).2.1 := by
            by_contra hlt2
            push_neg at hlt2
            have hfalse := hj₀min (bestJF ([] : List α) a b).2.1 hlt2
            have htrue : (commonRun (a.drop i₀)
                (b.drop (bestJF ([] : List α) a b).2.1) == maxRunVal a b) = true := by
              rw [← h1]
              exact beq_iff_eq.mpr hbrun
            rw [hfalse] at htrue
            exact Bool.false_ne_true htrue
          omega
    have hi_eq : (bestJF ([] : List α) a b).1 = i₀ := congrArg Prod.fst hpair
    have hj_eq : (bestJF ([] : List α) a b).2.1 = j₀ := congrArg Prod.snd hpair
    have hback : commonRun (a.take i₀).reverse (b.take j₀).reverse = 0 := by
      by_contra hb
      have hbpos : 0 < commonRun (a.take i₀).reverse (b.take j₀).reverse :=
        Nat.pos_of_ne_zero hb
      obtain ⟨h0i, h0j, hi2, hj2, heq⟩ :=
        back_pos (Nat.le_of_lt hi₀n) (Nat.le_of_lt hj₀n) hbpos
      have hstep := commonRun_pred hi2 hj2 h0i h0j heq
      have hle := maxRunVal_ge a b
        ((@mem_pairList a.length b.length (i₀ - 1, j₀ - 1)).mpr ⟨by omega, by omega⟩)
      simp only at hle
      rw [hstep, hrunij] at hle
      omega
    have hfwd : commonRun (a.drop (i₀ + maxRunVal a b))
        (b.drop (j₀ + maxRunVal a b)) = 0 := by
      rw [← List.drop_drop, ← List.drop_drop, ← hrunij]
      exact commonRun_drop_commonRun _ _
    have hclassic : classicFind a b = (i₀, j₀, maxRunVal a b) := by
      simp only [classicFind]
      rw [if_neg hK, hi₀]
      simp only [Option.getD_some]
      rw [hj₀]
      simp only [Option.getD_some]
    rw [hclassic]
    simp only [findLongestMatch, hi_eq, hj_eq, hkK, hback, hfwd]
    simp

theorem maxRunVal_nil_left [DecidableEq α] (b : List α) :
    maxRunVal ([] : List α) b = 0 := by
  simp [maxRunVal, pairList]

theorem maxRunVal_nil_right [DecidableEq α] (a : List α) :
    maxRunVal a ([] : List α) = 0 := by
  have hfl : ∀ l : List Nat, (l.flatMap fun _ => ([] : List (Nat × Nat))) = [] := by
    intro l
    induction l with
    | nil => rfl
    | cons x xs ih => simpa [List.flatMap_cons] using ih
  simp [maxRunVal, pairList, hfl]

theorem classicFind_nil_left [DecidableEq α] (b : List α) :
    classicFind ([] : List α) b = (0, 0, 0) := by
  simp only [classicFind]
  rw [if_pos (maxRunVal_nil_left b)]

theorem classicFind_nil_right [DecidableEq α] (a : List α) :
    classicFind a ([] : List α) = (0, 0, 0) := by
  simp only [classicFind]
  rw [if_pos (maxRunVal_nil_right a)]

theorem classicSumF_nil_left [DecidableEq α] :
    ∀ (fuel : Nat) (b : List α), classicSumF fuel ([] : List α) b = 0
  | 0, _ => rfl
  | fuel + 1, b => by simp [classicSumF, classicFind_nil_left]

theorem classicSumF_nil_right [DecidableEq α] :
    ∀ (fuel : Nat) (a : List α), classicSumF fuel a ([] : List α) = 0
  | 0, _ => rfl
  | fuel + 1, a => by simp [classicSumF, classicFind_nil_right]

/-- With the autojunk heuristic inactive, the total block size computed by
the `SequenceMatcher` recursion agrees with the classic recursive
algorithm, at every fuel value (both recursions shrink their windows in
lock-step). -/
theorem matchSumF_nojunk [DecidableEq α] :
    ∀ (fuel : Nat) (a b : List α),
      matchSumF fuel ([] : List α) a b = classicSumF fuel a b := by
  intro fuel
  induction fuel with
  | zero => intro a b; rfl
  | succ fuel ih =>
    intro a b
    simp only [matchSumF, classicSumF, findLongestMatch_nojunk]
    by_cases hk : (classicFind a b).2.2 = 0
    · simp [hk]
    · rw [if_neg hk, if_neg hk]
      have hL : (if 0 < (classicFind a b).1 ∧ 0 < (classicFind a b).2.1 then
          matchSumF fuel ([] : List α) (a.take (classicFind a b).1)
            (b.take (classicFind a b).2.1)
          else 0)
          = classicSumF fuel (a.take (classicFind a b).1)
            (b.take (classicFind a b).2.1) := by
        by_cases hg : 0 < (classicFind a b).1 ∧ 0 < (classicFind a b).2.1
        · rw [if_pos hg, ih]
        · rw [if_neg hg]
          have h0 : (classicFind a b).1 = 0 ∨ (classicFind a b).2.1 = 0 := by omega
          rcases h0 with h0 | h0
          · rw [h0, List.take_zero, classicSumF_nil_left]
          · rw [h0, List.take_zero, classicSumF_nil_right]
      have hR : (if (classicFind a b).1 + (classicFind a b).2.2 < a.length
            ∧ (classicFind a b).2.1 + (classicFind a b).2.2 < b.length then
          matchSumF fuel ([] : List α)
            (a.drop ((classicFind a b).1 + (classicFind a b).2.2))
            (b.drop ((classicFind a b).2.1 + (classicFind a b).2.2))
          else 0)
          = classicSumF fuel (a.drop ((classicFind a b).1 + (classicFind a b).2.2))
            (b.drop ((classicFind a b).2.1 + (classicFind a b).2.2)) := by
        by_cases hg : (classicFind a b).1 + (classicFind a b).2.2 < a.length
            ∧ (classicFind a b).2.1 + (classicFind a b).2.2 < b.length
        · rw [if_pos hg, ih]
        · rw [if_neg hg]
          have h0 : a.length ≤ (classicFind a b).1 + (classicFind a b).2.2
              ∨ b.length ≤ (classicFind a b).2.1 + (classicFind a b).2.2 := by omega
          rcases h0 with h0 | h0
          · rw [List.drop_eq_nil_of_le h0, classicSumF_nil_left]
          · rw [List.drop_eq_nil_of_le h0, classicSumF_nil_right]
      rw [hL, hR]

theorem popularList_short [DecidableEq α] {b : List α} (h : b.length < 200) :
    popularList b = [] := by
  simp only [popularList]
  rw [if_neg (by omega)]

/-- The total matched size never exceeds either sequence length. -/
theorem matchSumF_le [DecidableEq α] :
    ∀ (fuel : Nat) (pop a b : List α),
      matchSumF fuel pop a b ≤ min a.length b.length := by
  intro fuel
  induction fuel with
  | zero => intro pop a b; exact Nat.zero_le _
  | succ fuel ih =>
    intro pop a b
    simp only [matchSumF]
    by_cases hk : (findLongestMatch pop a b).2.2 = 0
    · simp [hk]
    · rw [if_neg hk]
      obtain ⟨hA, hB⟩ := findLongestMatch_bounds pop a b
      have hL1 : (if 0 < (findLongestMatch pop a b).1 ∧ 0 < (findLongestMatch pop a b).2.1 then
          matchSumF fuel pop (a.take (findLongestMatch pop a b).1)
            (b.take (findLongestMatch pop a b).2.1)
          else 0) ≤ min (findLongestMatch pop a b).1 (findLongestMatch pop a b).2.1 := by
        split
        · refine le_trans (ih pop _ _) ?_
          rw [List.length_take, List.length_take]
          omega
        · exact Nat.zero_le _
      have hR1 : (if (findLongestMatch pop a b).1 + (findLongestMatch pop a b).2.2 < a.length
            ∧ (findLongestMatch pop a b).2.1 + (findLongestMatch pop a b).2.2 < b.length then
          matchSumF fuel pop
            (a.drop ((findLongestMatch pop a b).1 + (findLongestMatch pop a b).2.2))
            (b.drop ((findLongestMatch pop a b).2.1 + (findLongestMatch pop a b).2.2))
          else 0)
          ≤ min (a.length - ((findLongestMatch pop a b).1 + (findLongestMatch pop a b).2.2))
              (b.length - ((findLongestMatch pop a b).2.1 + (findLongestMatch pop a b).2.2)) := by
        split
        · refine le_trans (ih pop _ _) ?_
          rw [List.length_drop, List.length_drop]
        · exact Nat.zero_le _
      omega

/-- On equal sequences the matcher recursion returns the full length in a
single step: the best popular-free block lies on the diagonal and the
extension phase grows it to the whole sequence. -/
theorem matchSumF_succ_self [DecidableEq α] (fuel : Nat) (pop a : List α) :
    matchSumF (fuel + 1) pop a a = a.length := by
  simp only [matchSumF, findLongestMatch_self]
  by_cases h : a.length = 0
  · simp [h]
  · rw [if_neg h]
    simp

/-- `SequenceMatcher` total match size of a list against itself. -/
theorem seqMatches_self [DecidableEq α] (a : List α) : seqMatches a a = a.length := by
  cases a with
  | nil => rfl
  | cons x xs =>
    have he : (x :: xs).length + (x :: xs).length = (x :: xs).length + xs.length + 1 := by
      simp only [List.length_cons]
      omega
    rw [seqMatches, he]
    exact matchSumF_succ_self _ _ _

/-!
## Lemmas: characters and the normalizer on ASCII text
-/

theorem lowerChar_toNat {n : Nat} (h1 : 65 ≤ n) (h2 : n ≤ 90) :
    (Char.ofNat (n + 32)).toNat = n + 32 := by
  interval_cases n <;> decide

theorem pyLowerChar_idem (c : Char) : pyLowerChar (pyLowerChar c) = pyLowerChar c := by
  unfold pyLowerChar
  by_cases h : 65 ≤ c.toNat ∧ c.toNat ≤ 90
  · rw [if_pos h, if_neg]
    have ht := lowerChar_toNat h.1 h.2
    rw [ht]
    omega
  · rw [if_neg h, if_neg h]

theorem pyLowerChar_ascii {c : Char} (h : c.toNat < 128) : (pyLowerChar c).toNat < 128 := by
  unfold pyLowerChar
  split
  · rename_i h2
    rw [lowerChar_toNat h2.1 h2.2]
    omega
  · exact h

theorem isPunct_toNat {c : Char} (h : isPunct c = true) :
    c.toNat ∈ ([33, 34, 35, 37, 38, 39, 40, 41, 42, 44, 45, 46, 47, 58, 59, 63,
      64, 91, 92, 93, 95, 123, 125] : List Nat) := by
  have hm : c ∈ punctChars := by simpa [isPunct] using h
  fin_cases hm <;> decide

theorem isPunct_ascii {c : Char} (h : isPunct c = true) : c.toNat < 128 := by
  have := isPunct_toNat h
  simp at this
  omega

theorem isPunct_pyLowerChar (c : Char) : isPunct (pyLowerChar c) = isPunct c := by
  unfold pyLowerChar
  split
  · rename_i h
    have h1 : isPunct c = false := by
      rcases hb : isPunct c with _ | _
      · rfl
      · have := isPunct_toNat hb
        simp at this
        omega
    have h2 : isPunct (Char.ofNat (c.toNat + 32)) = false := by
      rcases hb : isPunct (Char.ofNat (c.toNat + 32)) with _ | _
      · rfl
      · have := isPunct_toNat hb
        rw [lowerChar_toNat h.1 h.2] at this
        simp at this
        omega
    rw [h1, h2]
  · rfl

theorem nfkcDecomp_ascii {c : Char} (h : c.toNat < 128) : nfkcDecomp c = [c] := by
  rw [nfkcDecomp, if_neg]
  intro hc
  rw [hc] at h
  revert h
  decide

theorem nfkcCompose_ascii : ∀ {l : List Char}, (∀ c ∈ l, c.toNat < 128) → nfkcCompose l = l
  | [], _ => rfl
  | [_], _ => rfl
  | c₁ :: c₂ :: rest, h => by
    rw [nfkcCompose, if_neg, nfkcCompose_ascii (fun c hc => h c (List.mem_cons_of_mem _ hc))]
    intro hcc
    have h2 := h c₂ (by simp)
    rw [hcc.2] at h2
    revert h2
    decide

theorem flatMap_decomp_ascii : ∀ {l : List Char}, (∀ c ∈ l, c.toNat < 128) →
    l.flatMap nfkcDecomp = l
  | [], _ => rfl
  | c :: cs, h => by
    rw [List.flatMap_cons, nfkcDecomp_ascii (h c (by simp)),
      flatMap_decomp_ascii (fun d hd => h d (by simp [hd]))]
    rfl

theorem nfkc_ascii {s : String} (h : ∀ c ∈ s.data, c.toNat < 128) : nfkc s = s := by
  rw [nfkc, flatMap_decomp_ascii h, nfkcCompose_ascii h]

theorem data_mk (l : List Char) : (String.mk l).data = l := rfl

theorem normalize_word_idem_ascii {w : String} (h : ∀ c ∈ w.data, c.toNat < 128) :
    normalize_word (normalize_word w) = normalize_word w := by
  have hinner : normalize_word w = pyLower (stripPunct w) := by
    rw [normalize_word, nfkc_ascii h]
  have h1 : ∀ c ∈ (pyLower (stripPunct w)).data, c.toNat < 128 := by
    intro c hc
    simp only [pyLower, stripPunct, data_mk] at hc
    obtain ⟨d, hd, rfl⟩ := List.mem_map.mp hc
    exact pyLowerChar_ascii (h d (List.mem_of_mem_filter hd))
  rw [hinner, normalize_word, nfkc_ascii h1]
  simp only [pyLower, stripPunct, data_mk]
  refine congrArg String.mk ?_
  rw [List.filter_map, List.filter_filter, List.map_map]
  have e1 : w.data.filter
        (fun a => ((fun c => !isPunct c) ∘ pyLowerChar) a && !isPunct a)
      = w.data.filter (fun c => !isPunct c) := by
    refine List.filter_congr ?_
    intro a _
    simp [Function.comp, isPunct_pyLowerChar]
  rw [e1]
  refine List.map_congr_left ?_
  intro a _
  simp [Function.comp, pyLowerChar_idem]

theorem normalize_word_allPunct {t : String} (h : ∀ c ∈ t.data, isPunct c = true) :
    normalize_word t = "" := by
  have hascii : ∀ c ∈ t.data, c.toNat < 128 := fun c hc => isPunct_ascii (h c hc)
  rw [normalize_word, nfkc_ascii hascii]
  have hfe : t.data.filter (fun c => !isPunct c) = [] := by
    rw [List.filter_eq_nil_iff]
    intro a ha
    simp [h a ha]
  simp only [pyLower, stripPunct, data_mk, hfe, List.map_nil]

/-!
## Lemmas: literal replacement
-/

theorem prefMatch_append [DecidableEq α] :
    ∀ {old l : List α}, prefMatch old l = true → l = old ++ l.drop old.length
  | [], l, _ => rfl
  | _ :: _, [], h => by simp [prefMatch] at h
  | p :: ps, c :: cs, h => by
    rw [prefMatch, Bool.and_eq_true, decide_eq_true_eq] at h
    obtain ⟨rfl, h2⟩ := h
    have := prefMatch_append h2
    simpa [List.length_cons] using this

theorem replaceAuxF_self {old : List Char} (hne : old ≠ []) :
    ∀ (fuel : Nat) (l : List Char), l.length ≤ fuel → replaceAuxF old old fuel l = l := by
  intro fuel
  induction fuel with
  | zero =>
    intro l hl
    rw [List.length_eq_zero.mp (Nat.le_zero.mp hl)]
    rfl
  | succ fuel ih =>
    intro l hl
    cases l with
    | nil => rfl
    | cons c cs =>
      rw [replaceAuxF]
      split
      · rename_i hpm
        have hsp := prefMatch_append hpm
        have hlen : ((c :: cs).drop old.length).length ≤ fuel := by
          rw [List.length_drop]
          have h1 : 0 < old.length := List.length_pos.mpr hne
          simp only [List.length_cons] at hl ⊢
          omega
        rw [ih _ hlen, ← hsp]
      · rw [ih cs (by simp only [List.length_cons] at hl; omega)]

theorem replaceAuxF_not_contains {old new : List Char} :
    ∀ (fuel : Nat) (l : List Char), l.length ≤ fuel →
      containsSub old l = false → replaceAuxF old new fuel l = l := by
  intro fuel
  induction fuel with
  | zero =>
    intro l hl _
    rw [List.length_eq_zero.mp (Nat.le_zero.mp hl)]
    rfl
  | succ fuel ih =>
    intro l hl hc
    cases l with
    | nil => rfl
    | cons c cs =>
      rw [containsSub, Bool.or_eq_false_iff] at hc
      rw [replaceAuxF, if_neg (by rw [hc.1]; exact Bool.false_ne_true)]
      rw [ih cs (by simp only [List.length_cons] at hl; omega) hc.2]

theorem pyReplace_self (s o : String) : pyReplace s o o = s := by
  rw [pyReplace]
  split
  · rfl
  · rename_i hne
    rw [replaceAuxF_self hne _ _ (le_refl _)]

theorem pyReplace_not_contains {s o : String} (new : String)
    (h : containsSub o.data s.data = false) : pyReplace s o new = s := by
  rw [pyReplace]
  split
  · rfl
  · rw [replaceAuxF_not_contains _ _ (le_refl _) h]

theorem foldl_replace_id {y : String} :
    ∀ {l : List (String × String)},
      (∀ p ∈ l, normalizeForMap p.1 = p.2 ∨
        containsSub (normalizeForMap p.1).data y.data = false) →
      l.foldl (fun t p => pyReplace t (normalizeForMap p.1) p.2) y = y
  | [], _ => rfl
  | p :: ps, h => by
    have hstep : pyReplace y (normalizeForMap p.1) p.2 = y := by
      rcases h p (by simp) with heq | hnc
      · rw [← heq]
        exact pyReplace_self y (normalizeForMap p.1)
      · exact pyReplace_not_contains _ hnc
    rw [List.foldl_cons, hstep, foldl_replace_id (fun q hq => h q (by simp [hq]))]

/-- The four numeric fields of `compare_texts`, expressed through the
token-list lengths and the match count. -/
theorem compare_fields (t1 t2 : String) :
    (compare_texts t1 t2).total_words
        = max (pySplit t1).length (pySplit t2).length ∧
      (compare_texts t1 t2).num_matches
        = seqMatches ((pySplit t1).map normalize_word)
            ((pySplit t2).map normalize_word) ∧
      (compare_texts t1 t2).different_words
        = (((pySplit t1).length : ℚ) + (pySplit t2).length
            - 2 * (compare_texts t1 t2).num_matches) / 2 ∧
      (compare_texts t1 t2).word_order_similarity
        = if (pySplit t1).length + (pySplit t2).length = 0 then (1 : ℚ)
          else 2 * (compare_texts t1 t2).num_matches
            / (((pySplit t1).length : ℚ) + (pySplit t2).length) := by
  refine ⟨?_, rfl, ?_, ?_⟩
  · simp only [compare_texts, List.length_map]
  · simp only [compare_texts, List.length_map]
  · simp only [compare_texts, seqRatio, calculate_ratio, List.length_map]
    by_cases hz : (pySplit t1).length + (pySplit t2).length = 0
    · rw [if_pos hz, if_pos hz]
    · rw [if_neg hz, if_neg hz]
      push_cast
      ring

/-- Uniqueness: any block that attains the maximum and is lexicographically
least among attaining blocks is the one `bestJF` returns. -/
theorem bestJF_eq_of [DecidableEq α] {pop a b : List α} {i j k : Nat}
    (h4 : (i, j) ∈ pairList a.length b.length)
    (h1 : popFreeRun pop (a.drop i) (b.drop j) = k)
    (h5 : 0 < k)
    (h2 : ∀ p ∈ pairList a.length b.length,
      popFreeRun pop (a.drop p.1) (b.drop p.2) ≤ k)
    (h3 : ∀ q ∈ pairList a.length b.length,
      popFreeRun pop (a.drop q.1) (b.drop q.2) = k → (i, j) = q ∨ pairLexLT (i, j) q) :
    bestJF pop a b = (i, j, k) := by
  obtain ⟨hub, hattain⟩ := bestJF_spec pop a b
  rcases hattain with h0 | ⟨hmem, hf, hpos, hmin⟩
  · exfalso
    have hle := hub (i, j) h4
    rw [h1, h0] at hle
    simp at hle
    omega
  · have hkk : (bestJF pop a b).2.2 = k := by
      apply Nat.le_antisymm
      · exact hf ▸ h2 _ hmem
      · exact h1 ▸ hub (i, j) h4
    have hq1 := hmin (i, j) h4 (by rw [h1, hkk])
    have hq2 := h3 ((bestJF pop a b).1, (bestJF pop a b).2.1) hmem (by rw [hf, hkk])
    have hpair : ((bestJF pop a b).1, (bestJF pop a b).2.1) = (i, j) := by
      rcases hq1 with he | hlex1
      · exact he
      · rcases hq2 with he2 | hlex2
        · exact he2.symm
        · exfalso
          simp only [pairLexLT] at hlex1 hlex2
          omega
    have e1 : (bestJF pop a b).1 = i := congrArg Prod.fst hpair
    have e2 : (bestJF pop a b).2.1 = j := congrArg Prod.snd hpair
    have e0 : bestJF pop a b
        = ((bestJF pop a b).1, (bestJF pop a b).2.1, (bestJF pop a b).2.2) := rfl
    rw [e0, e1, e2, hkk]

/-- If no popular-free block at all exists, `bestJF` returns the sentinel. -/
theorem bestJF_zero_of [DecidableEq α] {pop a b : List α}
    (h : ∀ p ∈ pairList a.length b.length,
      popFreeRun pop (a.drop p.1) (b.drop p.2) = 0) :
    bestJF pop a b = (0, 0, 0) := by
  rcases (bestJF_spec pop a b).2 with h0 | ⟨hmem, hf, hpos, _⟩
  · exact h0
  · exfalso
    rw [h _ hmem] at hf
    omega

/-!
## The claims
-/

set_option maxRecDepth 40000 in
/-- C1 (counterexample): the claim "for every pair of normalized token
sequences the num_matches returned by compare equals the sum of block
lengths of the classic recursive longest-matching-block algorithm" fails
at the concrete pair `["y", "x"]` vs `["y", "z"] ++ 198 × ["x"]`: the
second sequence has 200 elements and `"x"` occurs more than
`200 // 100 + 1` times, so the autojunk heuristic removes it from the
index and `SequenceMatcher` counts 1 match where the classic algorithm
counts 2. -/
theorem claim_C1_counterexample :
    seqMatches (["y", "x"] : List String) (["y", "z"] ++ List.replicate 198 "x")
      ≠ classicMatches (["y", "x"] : List String) (["y", "z"] ++ List.replicate 198 "x") := by
  have hpop : popularList ((["y", "z"] ++ List.replicate 198 "x") : List String)
      = ["x"] := by decide
  have hBlen : ((["y", "z"] ++ List.replicate 198 "x") : List String).length = 200 := by
    rw [List.length_append, List.length_replicate]
    rfl
  have hxzero : ∀ ys : List String, popFreeRun ["x"] ["x"] ys = 0 := by
    intro ys
    cases ys with
    | nil => rfl
    | cons y ys =>
      rw [popFreeRun, if_neg]
      rintro ⟨rfl, hc⟩
      exact absurd hc (by decide)
  have hyx : ∀ ys : List String, popFreeRun ["x"] ["y", "x"] ys ≤ 1 := by
    intro ys
    cases ys with
    | nil => simp [popFreeRun]
    | cons y ys =>
      rw [popFreeRun]
      split
      · rw [hxzero]
      · exact Nat.zero_le _
  have hb : bestJF (["x"] : List String) ["y", "x"]
      (["y", "z"] ++ List.replicate 198 "x") = (0, 0, 1) := by
    apply bestJF_eq_of
    · exact mem_pairList.mpr ⟨by norm_num, by rw [hBlen]; norm_num⟩
    · decide
    · norm_num
    · intro p hp
      obtain ⟨i, j⟩ := p
      have hp1 := (mem_pairList.mp hp).1
      simp only [List.length_cons, List.length_nil] at hp1
      interval_cases i
      · exact hyx _
      · rw [show (["y", "x"] : List String).drop 1 = ["x"] from rfl, hxzero]
        norm_num
    · intro q hq hfq
      obtain ⟨qi, qj⟩ := q
      rcases Nat.eq_zero_or_pos qi with rfl | hqi
      · rcases Nat.eq_zero_or_pos qj with rfl | hqj
        · exact Or.inl rfl
        · exact Or.inr (Or.inr ⟨rfl, hqj⟩)
      · exact Or.inr (Or.inl hqi)
  have hflm : findLongestMatch (["x"] : List String) ["y", "x"]
      (["y", "z"] ++ List.replicate 198 "x") = (0, 0, 1) := by
    simp only [findLongestMatch, hb]
    decide
  have hbz : bestJF (["x"] : List String) ["x"]
      (["z"] ++ List.replicate 198 "x") = (0, 0, 0) := by
    apply bestJF_zero_of
    intro p hp
    obtain ⟨i, j⟩ := p
    have hp1 := (mem_pairList.mp hp).1
    simp only [List.length_cons, List.length_nil] at hp1
    interval_cases i
    exact hxzero _
  have hflm2 : findLongestMatch (["x"] : List String) ["x"]
      (["z"] ++ List.replicate 198 "x") = (0, 0, 0) := by
    simp only [findLongestMatch, hbz]
    decide
  have hinner : matchSumF 201 (["x"] : List String) ["x"]
      (["z"] ++ List.replicate 198 "x") = 0 := by
    rw [show (201 : Nat) = 200 + 1 from rfl]
    rw [matchSumF]
    simp only [hflm2]
    rw [if_pos trivial]
  have h1 : seqMatches (["y", "x"] : List String)
      (["y", "z"] ++ List.replicate 198 "x") = 1 := by
    unfold seqMatches
    rw [hpop, show (["y", "x"] : List String).length
      + ((["y", "z"] ++ List.replicate 198 "x") : List String).length = 201 + 1 from by
        rw [hBlen]
        rfl]
    rw [matchSumF]
    simp only [hflm]
    rw [if_neg (by decide)]
    rw [if_neg (by decide)]
    rw [if_pos (by refine ⟨by decide, ?_⟩; rw [hBlen]; decide)]
    rw [show List.drop (0 + 1) (["y", "x"] : List String) = ["x"] from rfl]
    rw [show List.drop (0 + 1) ((["y", "z"] ++ List.replicate 198 "x") : List String)
      = ["z"] ++ List.replicate 198 "x" from rfl]
    rw [hinner]
  have h2 : classicMatches (["y", "x"] : List String)
      (["y", "z"] ++ List.replicate 198 "x") = 2 := by
    unfold classicMatches
    decide
  rw [h1, h2]
  decide

/-- C1 (amended): for every pair of normalized token sequences in which
the second sequence has fewer than 200 tokens (so that the autojunk
heuristic of `difflib.SequenceMatcher` is inactive), the num_matches
computed by compare equals the sum of block lengths produced by the
classic recursive longest-matching-block algorithm with ties resolved to
the earliest-starting block in each sequence. -/
theorem claim_C1_amended (ws1 ws2 : List String) (h : ws2.length < 200) :
    seqMatches ws1 ws2 = classicMatches ws1 ws2 := by
  unfold seqMatches classicMatches
  rw [popularList_short h, matchSumF_nojunk]

theorem claim_C1_amended_witness :
    (["a", "b"] : List String).length < 200 ∧
      seqMatches (["a"] : List String) ["a", "b"]
        = classicMatches (["a"] : List String) ["a", "b"] :=
  ⟨by decide, claim_C1_amended ["a"] ["a", "b"] (by decide)⟩

set_option maxRecDepth 40000 in
/-- C2 (counterexample): for text1 = "cats and dogs" and
text2 = "dogs and cats" the claim asserts num_matches == 3; the code
returns num_matches == 1 (the longest matching block has length 1, ties
resolve to "cats" at position 0 of tokens1 and position 2 of tokens2, and
both remainders of the recursion have an empty side), so the claimed
conjunction is false. -/
theorem claim_C2_counterexample :
    ¬((compare_texts "cats and dogs" "dogs and cats").num_matches = 3 ∧
      (compare_texts "cats and dogs" "dogs and cats").word_order_similarity < 1) := by
  rintro ⟨h3, _⟩
  have h1 : (compare_texts "cats and dogs" "dogs and cats").num_matches = 1 := by
    decide
  rw [h1] at h3
  exact absurd h3 (by decide)

set_option maxRecDepth 40000 in
/-- C2 (amended): for text1 = "cats and dogs" and text2 = "dogs and cats",
compare returns num_matches == 1 and word_order_similarity < 1.0 (the
order sensitivity claimed by the spec holds, with match count 1 rather
than 3). -/
theorem claim_C2_amended :
    (compare_texts "cats and dogs" "dogs and cats").num_matches = 1 ∧
      (compare_texts "cats and dogs" "dogs and cats").word_order_similarity < 1 := by
  have h1 : (compare_texts "cats and dogs" "dogs and cats").num_matches = 1 := by
    decide
  refine ⟨h1, ?_⟩
  rw [(compare_fields "cats and dogs" "dogs and cats").2.2.2, h1]
  have hl1 : (pySplit "cats and dogs").length = 3 := by decide
  have hl2 : (pySplit "dogs and cats").length = 3 := by decide
  rw [hl1, hl2]
  norm_num

/-- C3: for every non-empty string `s`, `compare_texts s s` returns
num_matches equal to the number of whitespace tokens of `s`,
different_words = 0 and word_order_similarity = 1 (on equal token
sequences the matcher's best block lies on the diagonal and the extension
phase grows it to the full sequence). -/
theorem claim_C3 (s : String) (h : s ≠ "") :
    (compare_texts s s).num_matches = (pySplit s).length ∧
      (compare_texts s s).different_words = 0 ∧
      (compare_texts s s).word_order_similarity = 1 := by
  have hnum : (compare_texts s s).num_matches = (pySplit s).length := by
    rw [(compare_fields s s).2.1, seqMatches_self, List.length_map]
  refine ⟨hnum, ?_, ?_⟩
  · rw [(compare_fields s s).2.2.1, hnum]
    ring
  · rw [(compare_fields s s).2.2.2, hnum]
    by_cases hz : (pySplit s).length + (pySplit s).length = 0
    · rw [if_pos hz]
    · rw [if_neg hz]
      have hne : ((pySplit s).length : ℚ) + (pySplit s).length ≠ 0 := by
        have h2 : ((((pySplit s).length + (pySplit s).length : Nat)) : ℚ) ≠ 0 :=
          Nat.cast_ne_zero.mpr hz
        push_cast at h2
        exact h2
      field_simp
      ring

theorem claim_C3_witness :
    ("ab" : String) ≠ "" ∧
      ((compare_texts "ab" "ab").num_matches = (pySplit "ab").length ∧
        (compare_texts "ab" "ab").different_words = 0 ∧
        (compare_texts "ab" "ab").word_order_similarity = 1) :=
  ⟨by decide, claim_C3 "ab" (by decide)⟩

set_option maxRecDepth 40000 in
/-- C4 (counterexample): compare("a b", "b a c b") and
compare("b a c b", "a b") do not return identical metrics: the first
returns num_matches = 2, the second num_matches = 1 (the tie-break prefers
the earliest block in the first sequence, and the two recursions then cut
the remainders differently), so symmetry fails even though no autojunk is
involved. -/
theorem claim_C4_counterexample :
    ¬((compare_texts "a b" "b a c b").num_matches
          = (compare_texts "b a c b" "a b").num_matches ∧
        (compare_texts "a b" "b a c b").different_words
          = (compare_texts "b a c b" "a b").different_words ∧
        (compare_texts "a b" "b a c b").word_order_similarity
          = (compare_texts "b a c b" "a b").word_order_similarity) := by
  rintro ⟨h1, _, _⟩
  have ha : (compare_texts "a b" "b a c b").num_matches = 2 := by decide
  have hb : (compare_texts "b a c b" "a b").num_matches = 1 := by decide
  rw [ha, hb] at h1
  exact absurd h1 (by decide)

/-- C4 (amended): compare(a, b) and compare(b, a) return identical
total_words (the maximum of the two token counts is symmetric); the
num_matches, different_words and word_order_similarity values need not
coincide. -/
theorem claim_C4_amended (t1 t2 : String) :
    (compare_texts t1 t2).total_words = (compare_texts t2 t1).total_words := by
  rw [(compare_fields t1 t2).1, (compare_fields t2 t1).1]
  exact Nat.max_comm _ _

/-- C5: for every pair of input strings the result of compare satisfies
total_words = max(len(tokens1), len(tokens2)),
different_words = (len(tokens1) + len(tokens2) - 2*num_matches) / 2 in
exact (rational) arithmetic, and
word_order_similarity = 2*num_matches / (len(tokens1) + len(tokens2)),
defined as 1.0 when both token sequences are empty. -/
theorem claim_C5 (t1 t2 : String) :
    (compare_texts t1 t2).total_words
        = max (pySplit t1).length (pySplit t2).length ∧
      (compare_texts t1 t2).different_words
        = (((pySplit t1).length : ℚ) + (pySplit t2).length
            - 2 * (compare_texts t1 t2).num_matches) / 2 ∧
      (compare_texts t1 t2).word_order_similarity
        = if (pySplit t1).length + (pySplit t2).length = 0 then (1 : ℚ)
          else 2 * (compare_texts t1 t2).num_matches
            / (((pySplit t1).length : ℚ) + (pySplit t2).length) :=
  ⟨(compare_fields t1 t2).1, (compare_fields t1 t2).2.2.1,
    (compare_fields t1 t2).2.2.2⟩

/-- C6: for every pair of input strings, num_matches ≤ total_words and
different_words ≥ 0. -/
theorem claim_C6 (t1 t2 : String) :
    (compare_texts t1 t2).num_matches ≤ (compare_texts t1 t2).total_words ∧
      0 ≤ (compare_texts t1 t2).different_words := by
  have hb : (compare_texts t1 t2).num_matches
      ≤ min ((pySplit t1).map normalize_word).length
          ((pySplit t2).map normalize_word).length := by
    rw [(compare_fields t1 t2).2.1]
    exact matchSumF_le _ _ _ _
  rw [List.length_map, List.length_map] at hb
  constructor
  · rw [(compare_fields t1 t2).1]
    omega
  · rw [(compare_fields t1 t2).2.2.1]
    have hb2 : 2 * (compare_texts t1 t2).num_matches
        ≤ (pySplit t1).length + (pySplit t2).length := by omega
    have hc : ((2 * (compare_texts t1 t2).num_matches : Nat) : ℚ)
        ≤ (((pySplit t1).length + (pySplit t2).length : Nat) : ℚ) :=
      Nat.cast_le.mpr hb2
    push_cast at hc
    have hnn : (0 : ℚ) ≤ ((pySplit t1).length : ℚ) + (pySplit t2).length
        - 2 * (compare_texts t1 t2).num_matches := by linarith
    exact div_nonneg hnn (by norm_num)

set_option maxRecDepth 40000 in
/-- C7: for text1 = "The bullfrog is not happy" and
text2 = "the bull frog isnt happy", the full pipeline (filler stripping,
contraction folding, compound splitting) canonicalizes both to the same
5-token text "the bull frog isnt happy", and compare then returns
num_matches = 5, different_words = 0, word_order_similarity = 1. -/
theorem claim_C7 :
    split_compound_words (map_expanded_to_contraction
        (clean_text "The bullfrog is not happy"))
        = "the bull frog isnt happy" ∧
      split_compound_words (map_expanded_to_contraction
        (clean_text "the bull frog isnt happy"))
        = "the bull frog isnt happy" ∧
      pySplit "the bull frog isnt happy"
        = ["the", "bull", "frog", "isnt", "happy"] ∧
      (compare_texts "the bull frog isnt happy" "the bull frog isnt happy").num_matches
        = 5 ∧
      (compare_texts "the bull frog isnt happy" "the bull frog isnt happy").different_words
        = 0 ∧
      (compare_texts "the bull frog isnt happy" "the bull frog isnt happy").word_order_similarity
        = 1 := by
  have hnum : (compare_texts "the bull frog isnt happy"
      "the bull frog isnt happy").num_matches = 5 := by decide
  have hl : (pySplit "the bull frog isnt happy").length = 5 := by decide
  refine ⟨by decide, by decide, by decide, hnum, ?_, ?_⟩
  · rw [(compare_fields _ _).2.2.1, hnum, hl]
    norm_num
  · rw [(compare_fields _ _).2.2.2, hnum, hl]
    norm_num

/-- C8 (counterexample): the normalizer is not idempotent.  On the token
"a.́" (letter a, full stop, combining acute accent U+0301) the first
pass keeps the characters apart (the full stop blocks composition),
strips the full stop and returns "á"; re-normalizing composes
`a` + U+0301 into the single character U+00E1, a different string. -/
theorem claim_C8_counterexample :
    normalize_word (normalize_word "a.́") ≠ normalize_word "a.́" := by
  decide

/-- C8 (amended): the normalizer is idempotent on every token consisting
of ASCII characters (NFKC is the identity on ASCII text, stripping and
lowercasing keep it ASCII, and stripping commutes with lowercasing). -/
theorem claim_C8_amended (t : String) (h : ∀ c ∈ t.data, c.toNat < 128) :
    normalize_word (normalize_word t) = normalize_word t :=
  normalize_word_idem_ascii h

theorem claim_C8_amended_witness :
    (∀ c ∈ ("Hello, World!" : String).data, c.toNat < 128) ∧
      normalize_word (normalize_word "Hello, World!")
        = normalize_word "Hello, World!" :=
  ⟨by decide, claim_C8_amended "Hello, World!" (by decide)⟩

set_option maxRecDepth 40000 in
/-- C9 (counterexample): contraction folding is not stable under
repetition.  For x = "a.́" the fold normalizes the text to
"á" (stripping the full stop) and no mapping key occurs; refolding
re-normalizes, and NFKC now composes `a` + U+0301 into U+00E1, so the
second application changes the text. -/
theorem claim_C9_counterexample :
    map_expanded_to_contraction (map_expanded_to_contraction "a.́")
      ≠ map_expanded_to_contraction "a.́" := by
  decide

/-- C9 (amended): applying the contraction fold to an already-folded text
leaves it unchanged, provided the folded text re-normalizes to itself and
contains no occurrence of a mapping key other than keys equal to their own
replacement (both hold for ASCII transcripts: folded output is lowercase,
punctuation-free and key-free). -/
theorem claim_C9_amended (x : String)
    (h1 : normalizeForMap (map_expanded_to_contraction x)
      = map_expanded_to_contraction x)
    (h2 : ∀ p ∈ contraction_map, normalizeForMap p.1 = p.2 ∨
      containsSub (normalizeForMap p.1).data
        (map_expanded_to_contraction x).data = false) :
    map_expanded_to_contraction (map_expanded_to_contraction x)
      = map_expanded_to_contraction x := by
  show contraction_map.foldl (fun t p => pyReplace t (normalizeForMap p.1) p.2)
      (normalizeForMap (map_expanded_to_contraction x))
      = map_expanded_to_contraction x
  rw [h1]
  exact foldl_replace_id h2

set_option maxRecDepth 40000 in
theorem claim_C9_amended_witness :
    (normalizeForMap (map_expanded_to_contraction "we are happy")
        = map_expanded_to_contraction "we are happy") ∧
      (∀ p ∈ contraction_map, normalizeForMap p.1 = p.2 ∨
        containsSub (normalizeForMap p.1).data
          (map_expanded_to_contraction "we are happy").data = false) ∧
      map_expanded_to_contraction (map_expanded_to_contraction "we are happy")
        = map_expanded_to_contraction "we are happy" :=
  ⟨by decide, by decide, claim_C9_amended "we are happy" (by decide) (by decide)⟩

set_option maxRecDepth 40000 in
/-- C10: every token whose characters are all punctuation normalizes to
the empty string, and compare keeps that position as a token: the empty
strings remain elements of the normalized token lists, aligned empty
tokens match, and they contribute to num_matches, total_words and both
similarity ratios (the concrete pair "x ... y" vs "x ,,, y" matches on
all three positions with ratio 1). -/
theorem claim_C10 :
    (∀ t : String, (∀ c ∈ t.data, isPunct c = true) → normalize_word t = "") ∧
      (pySplit "x ... y").map normalize_word = ["x", "", "y"] ∧
      (pySplit "x ,,, y").map normalize_word = ["x", "", "y"] ∧
      (compare_texts "x ... y" "x ,,, y").num_matches = 3 ∧
      (compare_texts "x ... y" "x ,,, y").total_words = 3 ∧
      (compare_texts "x ... y" "x ,,, y").word_order_similarity = 1 ∧
      (compare_texts "x ... y" "x ,,, y").sequence_similarity = 1 := by
  have hnum : (compare_texts "x ... y" "x ,,, y").num_matches = 3 := by decide
  refine ⟨fun t h => normalize_word_allPunct h, by decide, by decide, hnum,
    by decide, ?_, ?_⟩
  · rw [(compare_fields _ _).2.2.2, hnum]
    have hl1 : (pySplit "x ... y").length = 3 := by decide
    have hl2 : (pySplit "x ,,, y").length = 3 := by decide
    rw [hl1, hl2]
    norm_num
  · have hseq : (compare_texts "x ... y" "x ,,, y").sequence_similarity
        = calculate_ratio
            (seqMatches
              (String.intercalate " " ((pySplit "x ... y").map normalize_word)).data
              (String.intercalate " " ((pySplit "x ,,, y").map normalize_word)).data)
            ((String.intercalate " " ((pySplit "x ... y").map normalize_word)).data.length
              + (String.intercalate " " ((pySplit "x ,,, y").map normalize_word)).data.length) :=
      rfl
    rw [hseq]
    have hm : seqMatches
        (String.intercalate " " ((pySplit "x ... y").map normalize_word)).data
        (String.intercalate " " ((pySplit "x ,,, y").map normalize_word)).data = 4 := by
      decide
    have hq1 : (String.intercalate " "
        ((pySplit "x ... y").map normalize_word)).data.length = 4 := by decide
    have hq2 : (String.intercalate " "
        ((pySplit "x ,,, y").map normalize_word)).data.length = 4 := by decide
    rw [hm, hq1, hq2]
    norm_num [calculate_ratio]

theorem claim_C10_witness :
    (∀ c ∈ ("..." : String).data, isPunct c = true) ∧ normalize_word "..." = "" :=
  ⟨by decide, claim_C10.1 "..." (by decide)⟩

end Ebrl
